import Mathlib

set_option maxRecDepth 20000

/-!
A shallow embedding of the chunking engine of the `rag` repository
(`src/chunk_strategies/*.py`, `src/config.py`), together with theorems that
settle the specification's claims about it.

Modelling conventions:
* Python `str` values are `List Char`; Python `str.strip()`, slicing
  (including negative indices), `rfind`, `split`, `in` are embedded below.
* Python integers used as loop indices are `Int` (they can go negative in
  the source); sizes are `Nat`.
* The `while` loops of the source are fuel-indexed recursions returning
  `Option`: `none` means the loop did not finish within the fuel, and the
  wrappers supply fuel that is sufficient whenever the source loop
  terminates (progress lemmas below make this precise); a `none` from a
  wrapper therefore corresponds to a diverging run of the Python loop.
* The tokenizer (`transformers.AutoTokenizer`) and the embedding model
  (`sentence_transformers.SentenceTransformer`) are external capabilities;
  they are injected as function parameters.  For the semantic strategy the
  injected capability directly yields the consecutive-sentence cosine
  distances (the float/irrational cosine computation lives inside the
  capability boundary), as rationals.
* The float comparison `last_space > chunk_size * MIN_CHUNK_RATIO` with
  `MIN_CHUNK_RATIO = 0.7` is embedded exactly as the rational comparison
  `7 * chunk_size < 10 * last_space`.
-/

namespace Rag

/-- Python `str.strip()`: remove whitespace from both ends. -/
def strip (l : List Char) : List Char :=
  ((l.dropWhile Char.isWhitespace).reverse.dropWhile Char.isWhitespace).reverse

/-- The leading-whitespace half of `strip`. -/
def stripFront (l : List Char) : List Char :=
  l.dropWhile Char.isWhitespace

/-- The trailing-whitespace half of `strip`. -/
def stripBack (l : List Char) : List Char :=
  (l.reverse.dropWhile Char.isWhitespace).reverse

/-- The non-whitespace content of a string (used to state "equal modulo
whitespace" properties). -/
def wsFree (l : List Char) : List Char :=
  l.filter (fun c => !c.isWhitespace)

/-- Normalize one Python slice index: negative indices count from the end,
and indices are clamped into `[0, n]`. -/
def pyIdx (n : Nat) (i : Int) : Nat :=
  if i < 0 then ((n : Int) + i).toNat else min i.toNat n

/-- Python slice `l[a:b]` with full Python index semantics. -/
def pySlice (l : List α) (a b : Int) : List α :=
  (l.drop (pyIdx l.length a)).take (pyIdx l.length b - pyIdx l.length a)

/-- Python single-element indexing `l[i]` with a default (the source only
indexes in-range, guarded by `end < text_length`). -/
def pyGetD (l : List Char) (i : Int) (d : Char) : Char :=
  if 0 ≤ i then l.getD i.toNat d else l.getD ((l.length : Int) + i).toNat d

/-- Python `chunk.rfind(' ')`: index of the last space, `-1` if none. -/
def rfindSpace (l : List Char) : Int :=
  match List.findIdx? (fun c => c == ' ') l.reverse with
  | some i => (l.length : Int) - 1 - i
  | none => -1

/-- Python `sep in text` for a nonempty separator (substring test). -/
def containsSeq (sep : List Char) : List Char → Bool
  | [] => sep.isPrefixOf ([] : List Char)
  | c :: rest => sep.isPrefixOf (c :: rest) || containsSeq sep rest

/-- Worker for Python `text.split(sep)` (`sep` nonempty).  The `fuel`
argument only makes the recursion structural: every step drops at least
one character of the remaining text, so `fuel > length` is enough and the
`fuel = 0` branch is unreachable from `pySplit`. -/
def splitOnAux (sep : List Char) : Nat → List Char → List Char → List (List Char)
  | 0, acc, l => [acc.reverse ++ l]
  | _ + 1, acc, [] => [acc.reverse]
  | fuel + 1, acc, c :: rest =>
    if sep ≠ [] ∧ sep.isPrefixOf (c :: rest) then
      acc.reverse :: splitOnAux sep fuel [] ((c :: rest).drop sep.length)
    else
      splitOnAux sep fuel (c :: acc) rest

/-- Python `text.split(sep)` for nonempty `sep`. -/
def pySplit (sep text : List Char) : List (List Char) :=
  splitOnAux sep (text.length + 1) [] text

/-- Re-attach the separator to every split piece except the last one
(`piece = split + (separator if i < len(splits) - 1 else "")`). -/
def attachSep (sep : List Char) : List (List Char) → List (List Char)
  | [] => []
  | [s] => [s]
  | s :: rest => (s ++ sep) :: attachSep sep rest

/-- `"".join(pieces)`. -/
def joinl (l : List (List Char)) : List Char :=
  l.flatten

/-- Python `s[-n:]` for `n > 0` (the overlap carry). -/
def takeLast (n : Nat) (l : List Char) : List Char :=
  l.drop (l.length - n)

/-! ## `chunk_fixed.chunk_text` (FixedWindowChunker)

```python
while start < text_length:
    end = start + chunk_size
    chunk = text[start:end]
    if end < text_length and not text[end].isspace():
        last_space = chunk.rfind(' ')
        if last_space > chunk_size * MIN_CHUNK_RATIO:
            end = start + last_space
            chunk = text[start:end]
    chunks.append(chunk.strip())
    start = end - overlap
```
-/

/-- One iteration of the fixed-window loop: the emitted (unstripped) window
and the next value of `start`. -/
def fixedStep (text : List Char) (cs ov : Nat) (start : Int) :
    List Char × Int :=
  let e0 : Int := start + (cs : Int)
  let chunk0 := pySlice text start e0
  let ls := rfindSpace chunk0
  if e0 < (text.length : Int) ∧ (pyGetD text e0 ' ').isWhitespace = false ∧
      7 * (cs : Int) < 10 * ls then
    (pySlice text start (start + ls), start + ls - (ov : Int))
  else
    (chunk0, e0 - (ov : Int))

/-- The fixed-window loop, emitting stripped chunks (the source appends
`chunk.strip()`). -/
def fixedLoop (text : List Char) (cs ov : Nat) :
    Nat → Int → Option (List (List Char))
  | 0, start =>
    if start < (text.length : Int) then none else some []
  | fuel + 1, start =>
    if start < (text.length : Int) then
      let sc := fixedStep text cs ov start
      match fixedLoop text cs ov fuel sc.2 with
      | some rest => some (strip sc.1 :: rest)
      | none => none
    else some []

/-- The same loop keeping the raw (unstripped) windows; used to state the
reconstruction property. -/
def fixedLoopRaw (text : List Char) (cs ov : Nat) :
    Nat → Int → Option (List (List Char))
  | 0, start =>
    if start < (text.length : Int) then none else some []
  | fuel + 1, start =>
    if start < (text.length : Int) then
      let sc := fixedStep text cs ov start
      match fixedLoopRaw text cs ov fuel sc.2 with
      | some rest => some (sc.1 :: rest)
      | none => none
    else some []

/-- `chunk_fixed.chunk_text(text, chunk_size, overlap)`. -/
def chunkTextFixed (text : List Char) (cs ov : Nat) :
    Option (List (List Char)) :=
  fixedLoop text cs ov (text.length + 1) 0

/-! ## `chunk_recursive._chunk_by_size` (character-level fallback)

```python
while start < len(text):
    end = start + chunk_size
    chunks.append(text[start:end].strip())
    start = end - overlap
return [c for c in chunks if c]
```
-/

def bySizeLoop (text : List Char) (cs ov : Nat) :
    Nat → Int → Option (List (List Char))
  | 0, start =>
    if start < (text.length : Int) then none else some []
  | fuel + 1, start =>
    if start < (text.length : Int) then
      match bySizeLoop text cs ov fuel (start + (cs : Int) - (ov : Int)) with
      | some rest => some (strip (pySlice text start (start + (cs : Int))) :: rest)
      | none => none
    else some []

/-- `chunk_recursive._chunk_by_size(text, chunk_size, overlap)`. -/
def chunkBySize (text : List Char) (cs ov : Nat) :
    Option (List (List Char)) :=
  (bySizeLoop text cs ov (text.length + 1) 0).map
    (List.filter (fun c => !c.isEmpty))

/-! ## `chunk_recursive._split_text_recursive` (RecursiveStructureChunker) -/

/-- The piece-packing loop body of `_split_text_recursive`.  State:
remaining pieces, accumulated chunks, the current buffer (list of pieces,
as in the source) and `current_length`.  `recur` is the recursive descent
into an oversized piece with the remaining separator tiers.  Returns the
accumulated chunks and the final buffer. -/
def packLoop (cs ov : Nat) (recur : List Char → Option (List (List Char))) :
    List (List Char) → List (List Char) → List (List Char) → Nat →
    Option (List (List Char) × List (List Char))
  | [], chunks, cur, _ => some (chunks, cur)
  | p :: ps, chunks, cur, curLen =>
    if cs < p.length then
      -- a single piece exceeds the size: flush, then recurse with the
      -- next separator tier
      let chunks1 := if cur ≠ [] then chunks ++ [strip (joinl cur)] else chunks
      match recur p with
      | some sub => packLoop cs ov recur ps (chunks1 ++ sub) [] 0
      | none => none
    else if cs < curLen + p.length ∧ cur ≠ [] then
      -- flush the current buffer, seed the next one with the overlap carry
      let chunks1 := chunks ++ [strip (joinl cur)]
      let otext := if 0 < ov then takeLast ov (joinl cur) else []
      let cur1 := if otext ≠ [] then [otext] else []
      packLoop cs ov recur ps chunks1 (cur1 ++ [p]) (otext.length + p.length)
    else
      packLoop cs ov recur ps chunks (cur ++ [p]) (curLen + p.length)

/-- The final-buffer flush at the end of the packing loop
(`if current_chunk: ... if chunk_text: chunks.append(chunk_text)`). -/
def finalFlush (cur : List (List Char)) : List (List Char) :=
  if cur ≠ [] ∧ strip (joinl cur) ≠ [] then [strip (joinl cur)] else []

/-- `_split_text_recursive(text, chunk_size, overlap, separators)`.
Structure: base cases, then the first applicable separator tier; the empty
tier falls back to `_chunk_by_size`; a tier absent from the text advances
to the next tier (re-running the unchanged base checks is a no-op).
The `fuel` argument only makes the recursion structural: every recursive
call decrements it in lockstep with dropping one separator tier, so any
`fuel > seps.length` is enough and the `fuel = 0` branch is unreachable
from the wrapper below. -/
def splitRecAux (cs ov : Nat) :
    Nat → List (List Char) → List Char → Option (List (List Char))
  | 0, _, _ => none
  | fuel + 1, seps, text =>
    if strip text = [] then some []
    else if text.length ≤ cs then some [strip text]
    else
      match seps with
      | [] => some []
      | sep :: rest =>
        if sep = [] then chunkBySize text cs ov
        else if containsSeq sep text then
          match packLoop cs ov (splitRecAux cs ov fuel rest)
              (attachSep sep (pySplit sep text)) [] [] 0 with
          | some (chunks, cur) => some (chunks ++ finalFlush cur)
          | none => none
        else splitRecAux cs ov fuel rest text

/-- The separator cascade of `chunk_text_recursive`. -/
def separators : List (List Char) :=
  [("\n\n").data, ("\n").data, (". ").data, ("! ").data, ("? ").data,
   ("; ").data, (", ").data, (" ").data, ("").data]

/-- `chunk_recursive.chunk_text_recursive(text, chunk_size, overlap)`. -/
def chunkTextRecursive (text : List Char) (cs ov : Nat) :
    Option (List (List Char)) :=
  splitRecAux cs ov (separators.length + 1) separators text

/-! ## `chunk_semantic` (SemanticBreakChunker)

The sentence splitter embeds the regex `(?<=[.!?])\s+(?=[A-ZÀÂÄÉÈÊËÏÎÔÖÙÛÜŸÇ])`:
a boundary sits at a maximal whitespace run that is preceded by `.`/`!`/`?`
and followed by an uppercase letter; the whitespace run is consumed. -/

/-- A sentence-ending punctuation character (`[.!?]`). -/
def isSentEnd (c : Char) : Bool :=
  c == '.' || c == '!' || c == '?'

/-- An uppercase letter in the sense of the source regex
(`[A-ZÀÂÄÉÈÊËÏÎÔÖÙÛÜŸÇ]`). -/
def isUpperStart (c : Char) : Bool :=
  ('A' ≤ c && c ≤ 'Z') || (("ÀÂÄÉÈÊËÏÎÔÖÙÛÜŸÇ").data.contains c)

/-- `_split_into_sentences` scanner: `acc` is the reversed current sentence.
A split happens when the previously read character is a sentence ender and
the maximal whitespace run starting here is followed by an uppercase
letter.  The `fuel` argument only makes the recursion structural: every
step consumes at least one character, so `fuel > length` is enough and
the `fuel = 0` branch is unreachable from `sentencesOf`. -/
def sentSplitAux : Nat → List Char → List Char → List (List Char)
  | 0, acc, l => [acc.reverse ++ l]
  | _ + 1, acc, [] => [acc.reverse]
  | fuel + 1, acc, c :: rest =>
    if (match acc with | p :: _ => isSentEnd p | [] => false) && c.isWhitespace then
      let run := (c :: rest).takeWhile Char.isWhitespace
      let after := (c :: rest).drop run.length
      match after with
      | u :: _ =>
        if isUpperStart u then acc.reverse :: sentSplitAux fuel [] after
        else sentSplitAux fuel (c :: acc) rest
      | [] => sentSplitAux fuel (c :: acc) rest
    else sentSplitAux fuel (c :: acc) rest

/-- `_split_into_sentences(text)`: regex split, then
`[s.strip() for s in sentences if s.strip()]`. -/
def sentencesOf (text : List Char) : List (List Char) :=
  ((sentSplitAux (text.length + 1) [] text).map strip).filter (fun s => !s.isEmpty)

/-- `" ".join(sentences)`. -/
def joinSpace : List (List Char) → List Char
  | [] => []
  | [s] => s
  | s :: rest => s ++ ' ' :: joinSpace rest

/-- `_split_large_chunk(sentences, max_size)` (greedy sentence packing,
no overlap carry; `current_length` counts each sentence plus one for the
joining space). -/
def splitLargeAux (maxS : Nat) :
    List (List Char) → List (List Char) → Nat → List (List Char)
  | [], cur, _ => if cur ≠ [] then [joinSpace cur] else []
  | s :: ss, cur, curLen =>
    if maxS < curLen + s.length ∧ cur ≠ [] then
      joinSpace cur :: splitLargeAux maxS ss [s] (s.length + 1)
    else
      splitLargeAux maxS ss (cur ++ [s]) (curLen + s.length + 1)

/-- `_split_large_chunk(sentences, max_size)`. -/
def splitLargeChunk (sentences : List (List Char)) (maxS : Nat) :
    List (List Char) :=
  splitLargeAux maxS sentences [] 0

/-- The mean of the consecutive-sentence distances (`np.mean`). -/
def distMean (ds : List ℚ) : ℚ :=
  ds.sum / (ds.length : ℚ)

/-- The breakpoint list: `[0]`, then `i + 1` for every pair distance
exceeding `mean * (1 + threshold)`, then `len(sentences)`. -/
def semanticBreakpoints (ds : List ℚ) (threshold : ℚ) (n : Nat) : List Nat :=
  (0 :: (ds.enum.filter (fun idc => distMean ds * (1 + threshold) < idc.2)).map
      (fun idc => idc.1 + 1)) ++ [n]

/-- Python list slice `l[a:b]` with non-negative in-range bounds. -/
def sliceN (l : List α) (a b : Nat) : List α :=
  (l.drop a).take (b - a)

/-- The candidate sentence groups, one per inter-breakpoint span
(`sentences[breakpoints[i]:breakpoints[i+1]]`), before any
oversized-subdivision pass. -/
def semanticCandidates (ss : List (List Char)) (bp : List Nat) :
    List (List (List Char)) :=
  (List.range (bp.length - 1)).map (fun i => sliceN ss (bp.getD i 0) (bp.getD (i + 1) 0))

/-- The distances between consecutive sentences, obtained from the injected
capability `pd` (embedding model plus cosine distance). -/
def consecDistances (pd : List Char → List Char → ℚ) (ss : List (List Char)) :
    List ℚ :=
  (ss.zip ss.tail).map (fun ab => pd ab.1 ab.2)

/-- `chunk_semantic.chunk_text_semantic(text, max_chunk_size, threshold)`
with the embedding capability `pd` injected as the consecutive-pair
distance function. -/
def chunkTextSemantic (pd : List Char → List Char → ℚ) (text : List Char)
    (maxSize : Nat) (threshold : ℚ) : List (List Char) :=
  let ss := sentencesOf text
  if ss.length ≤ 1 then
    if strip text = [] then [] else [strip text]
  else
    let ds := consecDistances pd ss
    let bp := semanticBreakpoints ds threshold ss.length
    let chunks := (semanticCandidates ss bp).flatMap (fun csents =>
      let chunk := joinSpace csents
      if maxSize < chunk.length then splitLargeChunk csents maxSize
      else [strip chunk])
    chunks.filter (fun c => !(strip c).isEmpty)

/-! ## `chunk_token.chunk_text_by_tokens` (TokenBudgetChunker) -/

/-- The injected tokenizer capability (`encode` / `decode`); `none` models
a raised exception. -/
structure Toknzr where
  encode : List Char → Option (List Nat)
  decode : List Nat → Option (List Char)

/-- The token-window loop.

```python
while start < len(tokens):
    end = min(start + chunk_size_tokens, len(tokens))
    chunk_tokens = tokens[start:end]
    try: ... decode, strip, append if nonempty
    except: ... skip this window
    start = end - overlap_tokens
    if start >= len(tokens): break
```
-/
def tokLoop (tk : Toknzr) (tokens : List Nat) (cstok ovtok : Nat) :
    Nat → Int → Option (List (List Char))
  | 0, start =>
    if start < (tokens.length : Int) then none else some []
  | fuel + 1, start =>
    if start < (tokens.length : Int) then
      let e : Int := min (start + (cstok : Int)) (tokens.length : Int)
      let emitted :=
        match tk.decode (pySlice tokens start e) with
        | some txt => if strip txt ≠ [] then [strip txt] else []
        | none => []
      let start1 := e - (ovtok : Int)
      if (tokens.length : Int) ≤ start1 then some emitted
      else
        match tokLoop tk tokens cstok ovtok fuel start1 with
        | some rest => some (emitted ++ rest)
        | none => none
    else some []

/-- `chunk_token.chunk_text_by_tokens(text, chunk_size_tokens, overlap_tokens)`.
Defaults come from the config (`max(500 // 4, 50)`, `max(50 // 4, 10)`);
the overlap is clamped to `chunk_size_tokens // 4` when too large; an
encoding failure falls back to `chunk_fixed.chunk_text(text)` with the
config defaults. -/
def chunkTextByTokens (tk : Toknzr) (text : List Char)
    (cstokO ovtokO : Option Nat) : Option (List (List Char)) :=
  let cstok := cstokO.getD (max (500 / 4) 50)
  let ovtok0 := ovtokO.getD (max (50 / 4) 10)
  let ovtok := if cstok ≤ ovtok0 then cstok / 4 else ovtok0
  match tk.encode text with
  | none => chunkTextFixed text 500 50
  | some tokens =>
    if tokens = [] then some []
    else tokLoop tk tokens cstok ovtok (tokens.length + 1) 0

/-! ## `chunk_unified.chunk_text` (ChunkingDispatcher) -/

/-- `chunk_unified.chunk_text(text, method, chunk_size, overlap)`.
`none` arguments select the config defaults (`CHUNK_METHOD = "recursive"`,
`CHUNK_SIZE = 500`, `CHUNK_OVERLAP = 50`); a missing capability
(`tok`/`pd`/`ext` = `none` models the corresponding `ImportError`) falls
back to the recursive strategy; an unknown method raises `ValueError`
(`Except.error`).  The semantic strategy receives
`SEMANTIC_THRESHOLD = 0.5` and not the overlap; the token strategy
receives the character budgets converted to tokens. -/
def chunkDispatch (tok : Option Toknzr) (pd : Option (List Char → List Char → ℚ))
    (ext : Option (List Char → List (List Char))) (text : List Char)
    (methodO : Option String) (csO ovO : Option Nat) :
    Except String (Option (List (List Char))) :=
  let method := methodO.getD ("recursive")
  let cs := csO.getD 500
  let ov := ovO.getD 50
  if method = "fixed" then Except.ok (chunkTextFixed text cs ov)
  else if method = "recursive" then Except.ok (chunkTextRecursive text cs ov)
  else if method = "token" then
    match tok with
    | some tk =>
      Except.ok (chunkTextByTokens tk text (some (max (cs / 4) 50)) (some (max (ov / 4) 10)))
    | none => Except.ok (chunkTextRecursive text cs ov)
  else if method = "semantic" then
    match pd with
    | some d => Except.ok (some (chunkTextSemantic d text cs (1 / 2)))
    | none => Except.ok (chunkTextRecursive text cs ov)
  else if method = "langchain" then
    match ext with
    | some f => Except.ok (some (f text))
    | none => Except.ok (chunkTextRecursive text cs ov)
  else Except.error ("Methode de chunking inconnue : " ++ method)

/-! ## `chunk_unified.prepare_chunks_for_db` -/

/-- One per-chunk metadata record
(`{"source": ..., "chunk_index": i, "total_chunks": len(chunks),
"chunk_method": method}`). -/
structure ChunkMeta where
  source : List Char
  chunkIndex : Nat
  totalChunks : Nat
  chunkMethod : String
deriving DecidableEq

/-- The inner loop of `prepare_chunks_for_db` over one document's chunks:
only chunks with non-blank strip are emitted, `i` is the raw enumeration
index, `cid` the global id counter.  Returns the texts, metadatas, ids and
the new counter. -/
def emitLoop (name : List Char) (method : String) (total : Nat) :
    List (List Char) → Nat → Nat →
    List (List Char) × List ChunkMeta × List String × Nat
  | [], _, cid => ([], [], [], cid)
  | c :: cs', i, cid =>
    if strip c ≠ [] then
      let r := emitLoop name method total cs' (i + 1) (cid + 1)
      (c :: r.1, ⟨name, i, total, method⟩ :: r.2.1,
        ("doc_" ++ toString cid) :: r.2.2.1, r.2.2.2)
    else emitLoop name method total cs' (i + 1) cid

/-- The document loop of `prepare_chunks_for_db`, threading the global id
counter; the outer `Option` is `none` when a chunking call diverges. -/
def prepareGo (tok : Option Toknzr) (pd : Option (List Char → List Char → ℚ))
    (ext : Option (List Char → List (List Char))) (methodO : Option String) :
    List (List Char × List Char) → Nat →
    Except String (Option (List (List Char) × List ChunkMeta × List String))
  | [], _ => Except.ok (some ([], [], []))
  | (name, content) :: docs, cid =>
    match chunkDispatch tok pd ext content methodO none none with
    | Except.error e => Except.error e
    | Except.ok none => Except.ok none
    | Except.ok (some chunks) =>
      let r := emitLoop name (methodO.getD ("recursive")) chunks.length chunks 0 cid
      match prepareGo tok pd ext methodO docs r.2.2.2 with
      | Except.error e => Except.error e
      | Except.ok none => Except.ok none
      | Except.ok (some rest) =>
        Except.ok (some (r.1 ++ rest.1, r.2.1 ++ rest.2.1, r.2.2.1 ++ rest.2.2))

/-- `chunk_unified.prepare_chunks_for_db(documents, method)`. -/
def prepareChunksForDb (tok : Option Toknzr)
    (pd : Option (List Char → List Char → ℚ))
    (ext : Option (List Char → List (List Char)))
    (docs : List (List Char × List Char)) (methodO : Option String) :
    Except String (Option (List (List Char) × List ChunkMeta × List String)) :=
  prepareGo tok pd ext methodO docs 0

/-- Re-assembly of the fixed chunker's windows "ignoring the characters
duplicated by overlap": the first window, then every later window with its
first `overlap` characters (the duplicated carry) removed. -/
def overlapJoin (ov : Nat) : List (List Char) → List Char
  | [] => []
  | w :: ws => w ++ (ws.map (List.drop ov)).flatten

/-! ## Closed forms for the `prepare_chunks_for_db` output (used to state
what the batch preparer emits) -/

/-- The raw chunk list the dispatcher produces for one document (empty in
the error/divergence cases, which cannot occur when `prepareGo`
succeeds). -/
def rawChunksOr (tok : Option Toknzr) (pd : Option (List Char → List Char → ℚ))
    (ext : Option (List Char → List (List Char))) (methodO : Option String)
    (content : List Char) : List (List Char) :=
  match chunkDispatch tok pd ext content methodO none none with
  | Except.ok (some l) => l
  | _ => []

/-- The texts `prepare_chunks_for_db` emits: per document, the raw chunks
that are non-blank after trimming, in order. -/
def textsSpec (tok : Option Toknzr) (pd : Option (List Char → List Char → ℚ))
    (ext : Option (List Char → List (List Char))) (methodO : Option String)
    (docs : List (List Char × List Char)) : List (List Char) :=
  docs.flatMap (fun d =>
    (rawChunksOr tok pd ext methodO d.2).filter (fun c => !(strip c).isEmpty))

/-- The metadata `prepare_chunks_for_db` emits: `chunk_index` is the
chunk's position in the raw list (counting the filtered blank chunks) and
`total_chunks` is the raw list's length. -/
def metasSpec (tok : Option Toknzr) (pd : Option (List Char → List Char → ℚ))
    (ext : Option (List Char → List (List Char))) (methodO : Option String)
    (docs : List (List Char × List Char)) : List ChunkMeta :=
  docs.flatMap (fun d =>
    (((rawChunksOr tok pd ext methodO d.2).enum.filter
        (fun ic => !(strip ic.2).isEmpty)).map
      (fun ic => ⟨d.1, ic.1, (rawChunksOr tok pd ext methodO d.2).length,
        methodO.getD ("recursive")⟩)))

/-! ## Concrete inputs used by counterexamples and witnesses -/

/-- A tokenizer capability whose `encode`/`decode` always raise. -/
def failTok : Toknzr :=
  ⟨fun _ => none, fun _ => none⟩

/-- 300 `a`s, a paragraph break, 300 `b`s: long enough that the fixed and
recursive strategies with the default `(500, 50)` parameters disagree. -/
def bigText : List Char :=
  List.replicate 300 'a' ++ ("\n\n").data ++ List.replicate 300 'b'

/-- `a`, 1000 spaces, `b`: with the fixed strategy and the default
`(500, 50)` parameters the middle window is whitespace-only, so the raw
chunk list is `["a", "", "b"]`. -/
def wsDoc : List Char :=
  'a' :: (List.replicate 1000 ' ' ++ ['b'])

/-! ## Generic loop lemmas -/

/-- Unfolding lemma for `fixedLoop` at positive fuel. -/
theorem fixedLoop_succ (text : List Char) (cs ov fuel : Nat) (start : Int) :
    fixedLoop text cs ov (fuel + 1) start =
      if start < (text.length : Int) then
        match fixedLoop text cs ov fuel (fixedStep text cs ov start).2 with
        | some rest => some (strip (fixedStep text cs ov start).1 :: rest)
        | none => none
      else some [] := rfl

/-- Unfolding lemma for `bySizeLoop` at positive fuel. -/
theorem bySizeLoop_succ (text : List Char) (cs ov fuel : Nat) (start : Int) :
    bySizeLoop text cs ov (fuel + 1) start =
      if start < (text.length : Int) then
        match bySizeLoop text cs ov fuel (start + (cs : Int) - (ov : Int)) with
        | some rest =>
          some (strip (pySlice text start (start + (cs : Int))) :: rest)
        | none => none
      else some [] := rfl

/-- A fixed-window iteration that does not move `start` never terminates:
the source loop has no overlap clamp, so such runs loop forever. -/
theorem fixedLoop_stuck (text : List Char) (cs ov : Nat) (s : Int)
    (hs : (fixedStep text cs ov s).2 = s) (hlt : s < (text.length : Int)) :
    ∀ fuel, fixedLoop text cs ov fuel s = none := by
  intro fuel
  induction fuel with
  | zero => simp [fixedLoop, hlt]
  | succ n ih => simp [fixedLoop, hlt, hs, ih]

/-- Once `start` has passed the end of the text, the fixed-window loop
returns no further chunks, whatever the fuel. -/
theorem fixedLoop_done (text : List Char) (cs ov : Nat) (s : Int)
    (h : (text.length : Int) ≤ s) (fuel : Nat) :
    fixedLoop text cs ov fuel s = some [] := by
  cases fuel <;> simp [fixedLoop, not_lt.mpr h]

/-! ## C3 (code_bug): no overlap clamp, the fixed window can stall -/

/-- C3: the claim says the engine clamps `overlap >= chunk_size` so the
sliding windows always make forward progress.  The code has no clamp
outside the token strategy: on `chunk_text("ab", 1, 1)` the window start
stays at `0` forever (`start = end - overlap = 0`), so the loop returns
nothing for any amount of fuel — the Python loop never terminates. -/
theorem c3_divergence :
    (∀ fuel : Nat, fixedLoop (("ab").data) 1 1 fuel 0 = none) ∧
    chunkTextFixed (("ab").data) 1 1 = none := by
  have h := fixedLoop_stuck (("ab").data) 1 1 0 (by decide) (by decide)
  exact ⟨h, h 3⟩

/-- C3 witness: the divergence fact instantiated at fuel 5. -/
theorem c3_divergence_wit : fixedLoop (("ab").data) 1 1 5 0 = none :=
  c3_divergence.1 5

/-! ## C7 (confirmed): token strategy without a tokenizer capability -/

/-- C7: requesting the `token` strategy from the dispatcher when no
tokenizer capability is available (the `ImportError` branch) yields
exactly the recursive strategy's output with the same size and overlap. -/
theorem c7_token_fallback (pd : Option (List Char → List Char → ℚ))
    (ext : Option (List Char → List (List Char))) (text : List Char)
    (cs ov : Nat) :
    chunkDispatch none pd ext text (some ("token")) (some cs) (some ov) =
      Except.ok (chunkTextRecursive text cs ov) := rfl

/-- C7 witness: concrete instantiation. -/
theorem c7_token_fallback_wit :
    chunkDispatch none none none (("hi there").data) (some ("token"))
        (some 4) (some 1) =
      Except.ok (chunkTextRecursive (("hi there").data) 4 1) :=
  c7_token_fallback none none (("hi there").data) 4 1

/-! ## C10 (confirmed): the semantic path ignores the overlap argument -/

/-- C10: when the semantic strategy is selected through the dispatcher and
the embedding capability is present, the caller-supplied overlap has no
influence: the semantic chunker is invoked with the configured threshold
and without the overlap argument. -/
theorem c10_overlap_independent (tok : Option Toknzr)
    (pd : List Char → List Char → ℚ)
    (ext : Option (List Char → List (List Char))) (text : List Char)
    (cs o1 o2 : Nat) :
    chunkDispatch tok (some pd) ext text (some ("semantic")) (some cs) (some o1) =
      chunkDispatch tok (some pd) ext text (some ("semantic")) (some cs) (some o2) := rfl

/-- C10 witness: concrete instantiation with two different overlaps. -/
theorem c10_overlap_independent_wit :
    chunkDispatch none (some (fun _ _ => 0)) none (("a. B").data)
        (some ("semantic")) (some 10) (some 0) =
      chunkDispatch none (some (fun _ _ => 0)) none (("a. B").data)
        (some ("semantic")) (some 10) (some 9) :=
  c10_overlap_independent none (fun _ _ => 0) none (("a. B").data) 10 0 9

/-! ## C4 (corrected): encode failure falls back to the fixed chunker -/

/-- C4 counterexample: with a tokenizer whose `encode` raises, the token
chunker returns the output of `chunk_fixed.chunk_text(text)` with the
config defaults `(500, 50)` — and on `bigText` that output differs from
the recursive strategy's output, so the strategy does not fail closed
into the recursive chunker as claimed. -/
theorem c4_cex :
    chunkTextByTokens failTok bigText none none = chunkTextFixed bigText 500 50 ∧
    chunkTextFixed bigText 500 50 ≠ chunkTextRecursive bigText 500 50 := by
  refine ⟨rfl, ?_⟩
  decide

/-- C4 (amended): when `encode` fails, `chunk_text_by_tokens` falls back to
the fixed chunker with the config defaults `(500, 50)` (not to the
recursive strategy). -/
theorem c4_fallback (tk : Toknzr) (text : List Char) (a b : Option Nat)
    (h : tk.encode text = none) :
    chunkTextByTokens tk text a b = chunkTextFixed text 500 50 := by
  simp [chunkTextByTokens, h]

/-- C4 witness: the fallback theorem at the failing tokenizer. -/
theorem c4_fallback_wit :
    chunkTextByTokens failTok (("hello world").data) (some 8) (some 2) =
      chunkTextFixed (("hello world").data) 500 50 :=
  c4_fallback failTok (("hello world").data) (some 8) (some 2) rfl

/-! ## C8 (corrected): idempotence on short texts -/

/-- C8 counterexample: `"ab"` has length `2 ≤ chunk_size = 2`, yet the
fixed chunker with overlap 1 emits two chunks (`start = end - overlap`
re-enters the text), not one chunk equal to the trimmed input. -/
theorem c8_cex :
    chunkTextFixed (("ab").data) 2 1 = some [("ab").data, ("b").data] ∧
    (("ab").data).length ≤ 2 ∧ strip (("ab").data) = ("ab").data := by
  decide

/-- C8 (amended): a nonblank text no longer than `chunk_size` is returned
as the single trimmed chunk by the recursive strategy; the fixed strategy
guarantees this only when `length + overlap ≤ chunk_size`; the semantic
strategy when the text holds at most one sentence.  (The token strategy
re-windows by token budget and its loop never terminates normally, see
C3/C8 notes.) -/
theorem c8_idempotence :
    (∀ (text : List Char) (cs ov : Nat), strip text ≠ [] → text.length ≤ cs →
      chunkTextRecursive text cs ov = some [strip text]) ∧
    (∀ (text : List Char) (cs ov : Nat), strip text ≠ [] → 1 ≤ text.length →
      text.length + ov ≤ cs → chunkTextFixed text cs ov = some [strip text]) ∧
    (∀ (pd : List Char → List Char → ℚ) (text : List Char) (maxS : Nat) (θ : ℚ),
      (sentencesOf text).length ≤ 1 → strip text ≠ [] →
      chunkTextSemantic pd text maxS θ = [strip text]) := by
  refine ⟨?_, ?_, ?_⟩
  · intro text cs ov h1 h2
    show splitRecAux cs ov (8 + 1) separators text = _
    simp [splitRecAux, h1, h2]
  · intro text cs ov h1 hlen hcs
    have hlt : (0 : Int) < (text.length : Int) := by exact_mod_cast hlen
    have hcond : ¬ ((0 : Int) + (cs : Int) < (text.length : Int) ∧
        (pyGetD text ((0 : Int) + (cs : Int)) ' ').isWhitespace = false ∧
        7 * (cs : Int) < 10 * rfindSpace (pySlice text 0 ((0 : Int) + (cs : Int)))) := by
      rintro ⟨hc, -, -⟩
      omega
    have hch : pySlice text 0 ((0 : Int) + (cs : Int)) = text := by
      have hidx : pyIdx text.length ((0 : Int) + (cs : Int)) = text.length := by
        unfold pyIdx
        rw [if_neg (by omega : ¬ ((0 : Int) + (cs : Int) < 0))]
        have ht : ((0 : Int) + (cs : Int)).toNat = cs := by omega
        rw [ht]
        omega
      have h0 : pyIdx text.length 0 = 0 := by simp [pyIdx]
      unfold pySlice
      rw [hidx, h0]
      simp
    have hstep : fixedStep text cs ov 0 = (text, (0 : Int) + (cs : Int) - (ov : Int)) := by
      simp only [fixedStep]
      rw [if_neg hcond, hch]
    unfold chunkTextFixed
    rw [fixedLoop_succ, if_pos hlt, hstep]
    rw [fixedLoop_done text cs ov ((0 : Int) + (cs : Int) - (ov : Int))
      (by omega)]
  · intro pd text maxS θ h1 h2
    simp [chunkTextSemantic, h1, h2]

/-- C8 witness: the amended idempotence at concrete inputs. -/
theorem c8_idempotence_wit :
    chunkTextRecursive (("ab").data) 5 1 = some [strip (("ab").data)] ∧
    chunkTextFixed (("ab").data) 5 2 = some [strip (("ab").data)] ∧
    chunkTextSemantic (fun _ _ => 0) (("ab").data) 5 0 = [strip (("ab").data)] :=
  ⟨c8_idempotence.1 (("ab").data) 5 1 (by decide) (by decide),
   c8_idempotence.2.1 (("ab").data) 5 2 (by decide) (by decide) (by decide),
   c8_idempotence.2.2 (fun _ _ => 0) (("ab").data) 5 0 (by decide) (by decide)⟩

/-! ## Strip and whitespace lemmas -/

theorem dropWhile_idem (p : α → Bool) (l : List α) :
    (l.dropWhile p).dropWhile p = l.dropWhile p := by
  induction l with
  | nil => rfl
  | cons c t ih =>
    by_cases h : p c
    · simp [List.dropWhile_cons, h, ih]
    · simp [List.dropWhile_cons, h]

theorem strip_eq_sb_sf (l : List Char) : strip l = stripBack (stripFront l) := rfl

theorem stripBack_prefix_self (l : List Char) : stripBack l <+: l := by
  have h : (stripBack l).reverse <:+ l.reverse := by
    simpa [stripBack] using List.dropWhile_suffix (l := l.reverse) Char.isWhitespace
  exact List.reverse_suffix.mp h

theorem stripFront_eq_self_of_prefix {l m : List Char}
    (hm : stripFront m = m) (hp : l <+: m) : stripFront l = l := by
  cases l with
  | nil => rfl
  | cons c t =>
    obtain ⟨r, hr⟩ := hp
    unfold stripFront at hm ⊢
    rw [← hr, List.cons_append, List.dropWhile_cons] at hm
    rw [List.dropWhile_cons]
    by_cases h : Char.isWhitespace c
    · rw [if_pos h] at hm
      have hlen := congrArg List.length hm
      have hle := ((List.dropWhile_suffix (l := t ++ r)
        Char.isWhitespace).sublist).length_le
      rw [List.length_cons] at hlen
      omega
    · rw [if_neg h]

theorem stripBack_idem (l : List Char) : stripBack (stripBack l) = stripBack l := by
  unfold stripBack
  rw [List.reverse_reverse, dropWhile_idem]

theorem strip_idem (l : List Char) : strip (strip l) = strip l := by
  rw [strip_eq_sb_sf, strip_eq_sb_sf]
  have h1 : stripFront (stripFront l) = stripFront l := dropWhile_idem _ _
  have h2 : stripFront (stripBack (stripFront l)) = stripBack (stripFront l) :=
    stripFront_eq_self_of_prefix h1 (stripBack_prefix_self _)
  rw [h2, stripBack_idem]

theorem strip_length_le (l : List Char) : (strip l).length ≤ l.length := by
  rw [strip_eq_sb_sf]
  have h1 := (stripBack_prefix_self (stripFront l)).sublist.length_le
  have h2 := (List.dropWhile_suffix (l := l) Char.isWhitespace).sublist.length_le
  exact le_trans h1 h2

theorem wsFree_append (a b : List Char) : wsFree (a ++ b) = wsFree a ++ wsFree b :=
  List.filter_append _ _

theorem wsFree_reverse (l : List Char) : wsFree l.reverse = (wsFree l).reverse :=
  List.filter_reverse _ _

theorem wsFree_dropWhile (l : List Char) :
    wsFree (l.dropWhile Char.isWhitespace) = wsFree l := by
  induction l with
  | nil => rfl
  | cons c t ih =>
    by_cases h : Char.isWhitespace c
    · rw [List.dropWhile_cons, if_pos h, ih]
      simp [wsFree, List.filter_cons, h]
    · rw [List.dropWhile_cons, if_neg h]

theorem wsFree_strip (l : List Char) : wsFree (strip l) = wsFree l := by
  unfold strip
  rw [wsFree_reverse, wsFree_dropWhile, wsFree_reverse, List.reverse_reverse,
    wsFree_dropWhile]

theorem wsFree_of_strip_nil {l : List Char} (h : strip l = []) : wsFree l = [] := by
  rw [← wsFree_strip, h]
  rfl

/-- Every chunk emitted by the character-level fallback loop is the strip
of some window. -/
theorem bySizeLoop_strips (text : List Char) (cs ov : Nat) :
    ∀ (fuel : Nat) (s : Int) (l : List (List Char)),
      bySizeLoop text cs ov fuel s = some l → ∀ c ∈ l, ∃ x, c = strip x := by
  intro fuel
  induction fuel with
  | zero =>
    intro s l h c hc
    by_cases hs : s < (text.length : Int)
    · simp [bySizeLoop, hs] at h
    · simp [bySizeLoop, hs] at h
      subst h
      simp at hc
  | succ n ih =>
    intro s l h c hc
    by_cases hs : s < (text.length : Int)
    · rw [bySizeLoop_succ, if_pos hs] at h
      cases hr : bySizeLoop text cs ov n (s + (cs : Int) - (ov : Int)) with
      | none => rw [hr] at h; simp at h
      | some rest =>
        rw [hr] at h
        simp at h
        subst h
        rcases List.mem_cons.mp hc with hc | hc
        · exact ⟨_, hc⟩
        · exact ih _ rest hr c hc
    · simp [bySizeLoop, hs] at h
      subst h
      simp at hc

/-- Every text emitted by the per-document loop of `prepare_chunks_for_db`
is non-blank. -/
theorem emitLoop_texts (name : List Char) (method : String) (total : Nat) :
    ∀ (chunks : List (List Char)) (i cid : Nat) (c : List Char),
      c ∈ (emitLoop name method total chunks i cid).1 → strip c ≠ [] := by
  intro chunks
  induction chunks with
  | nil => intro i cid c hc; simp [emitLoop] at hc
  | cons x xs ih =>
    intro i cid c hc
    by_cases hx : strip x ≠ []
    · simp only [emitLoop, if_pos hx] at hc
      rcases List.mem_cons.mp hc with hc | hc
      · subst hc; exact hx
      · exact ih _ _ c hc
    · simp only [emitLoop, if_neg hx] at hc
      exact ih _ _ c hc

/-- Every text emitted by `prepare_chunks_for_db` is non-blank. -/
theorem prepareGo_texts (tok : Option Toknzr)
    (pd : Option (List Char → List Char → ℚ))
    (ext : Option (List Char → List (List Char))) (methodO : Option String) :
    ∀ (docs : List (List Char × List Char)) (cid : Nat) t m ids,
      prepareGo tok pd ext methodO docs cid = Except.ok (some (t, m, ids)) →
      ∀ c ∈ t, strip c ≠ [] := by
  intro docs
  induction docs with
  | nil =>
    intro cid t m ids h c hc
    simp [prepareGo] at h
    rcases h with ⟨rfl, -, -⟩
    simp at hc
  | cons d rest ih =>
    intro cid t m ids h c hc
    obtain ⟨name, content⟩ := d
    rw [prepareGo] at h
    cases hdisp : chunkDispatch tok pd ext content methodO none none with
    | error e => rw [hdisp] at h; simp at h
    | ok o =>
      cases o with
      | none => rw [hdisp] at h; simp at h
      | some chunks =>
        rw [hdisp] at h
        simp only [] at h
        cases hrest : prepareGo tok pd ext methodO rest
            (emitLoop name (methodO.getD ("recursive")) chunks.length chunks 0 cid).2.2.2 with
        | error e => rw [hrest] at h; simp at h
        | ok o2 =>
          cases o2 with
          | none => rw [hrest] at h; simp at h
          | some r2 =>
            rw [hrest] at h
            simp at h
            rw [← h.1] at hc
            rcases List.mem_append.mp hc with hc | hc
            · exact emitLoop_texts name _ chunks.length chunks 0 cid c hc
            · exact ih _ r2.1 r2.2.1 r2.2.2 (by rw [hrest]) c hc

/-! ## C2 (corrected): empty chunks can be emitted -/

/-- C2 counterexample: on `"a    b"` with `(chunk_size, overlap) = (2, 0)`
the fixed strategy returns a chunk list containing the empty string (its
middle window is whitespace-only and is appended after `strip` without a
check), violating "no strategy ever emits an empty or whitespace-only
chunk". -/
theorem c2_cex :
    chunkTextFixed (("a    b").data) 2 0 = some [("a").data, [], ("b").data] ∧
    ¬ (∀ c ∈ [("a").data, ([] : List Char), ("b").data], strip c ≠ []) := by
  decide

/-- C2 (amended): the fixed chunker and the recursive pack loop can emit
empty chunks for whitespace-heavy inputs, but the character-level fallback
`_chunk_by_size` filters them, the semantic strategy filters blank chunks,
and `prepare_chunks_for_db` emits only chunks that are non-empty after
trimming. -/
theorem c2_nonempty :
    (∀ (text : List Char) (cs ov : Nat) (res : List (List Char)),
      chunkBySize text cs ov = some res → ∀ c ∈ res, strip c ≠ []) ∧
    (∀ (pd : List Char → List Char → ℚ) (text : List Char) (maxS : Nat) (θ : ℚ),
      ∀ c ∈ chunkTextSemantic pd text maxS θ, strip c ≠ []) ∧
    (∀ tok pd ext docs methodO t m ids,
      prepareChunksForDb tok pd ext docs methodO = Except.ok (some (t, m, ids)) →
      ∀ c ∈ t, strip c ≠ []) := by
  refine ⟨?_, ?_, ?_⟩
  · intro text cs ov res h c hc
    obtain ⟨l, hl, rfl⟩ : ∃ l, bySizeLoop text cs ov (text.length + 1) 0 = some l ∧
        res = l.filter (fun c => !c.isEmpty) := by
      unfold chunkBySize at h
      cases hb : bySizeLoop text cs ov (text.length + 1) 0 with
      | none => rw [hb] at h; simp at h
      | some l => rw [hb] at h; simp at h; exact ⟨l, rfl, h.symm⟩
    have hmem := List.mem_filter.mp hc
    obtain ⟨x, rfl⟩ := bySizeLoop_strips text cs ov _ _ l hl c hmem.1
    rw [strip_idem]
    intro hnil
    rw [hnil] at hmem
    simp at hmem
  · intro pd text maxS θ c hc
    unfold chunkTextSemantic at hc
    by_cases hss : (sentencesOf text).length ≤ 1
    · rw [if_pos hss] at hc
      by_cases hst : strip text = []
      · simp [hst] at hc
      · rw [if_neg hst] at hc
        simp at hc
        rw [hc, strip_idem]
        exact hst
    · rw [if_neg hss] at hc
      have := (List.mem_filter.mp hc).2
      simpa using this
  · intro tok pd ext docs methodO t m ids h c hc
    exact prepareGo_texts tok pd ext methodO docs 0 t m ids h c hc

/-- C2 witness: the amended non-emptiness facts at concrete inputs. -/
theorem c2_nonempty_wit :
    (∀ c ∈ [("ab").data, ("b").data], strip c ≠ []) ∧
    (∀ c ∈ chunkTextSemantic (fun _ _ => 0) (("hi").data) 5 0, strip c ≠ []) ∧
    (∀ c ∈ [("ab").data], strip c ≠ []) :=
  ⟨c2_nonempty.1 (("ab").data) 2 1 [("ab").data, ("b").data] (by decide),
   c2_nonempty.2.1 (fun _ _ => 0) (("hi").data) 5 0,
   c2_nonempty.2.2 none none none [(("d").data, ("ab").data)] (some ("fixed"))
     [("ab").data] [⟨("d").data, 0, 1, "fixed"⟩] [("doc_0")] (by rfl)⟩

/-! ## C1 (corrected): the size bound -/

/-- C1 counterexample: on `"aaaa bbbb cccc"` with
`(chunk_size, overlap) = (5, 3)` the recursive chunker emits the chunk
`"aa bbbb"` of length `7 > 5` even though every piece is at most
`chunk_size` long — the overlap-seeded buffer receives the next piece
without a size re-check.  The chunk contains a space, so it is not a
single indivisible word. -/
theorem c1_cex :
    chunkTextRecursive (("aaaa bbbb cccc").data) 5 3 =
      some [("aaaa").data, ("aa bbbb").data, ("bb cccc").data] ∧
    5 < (("aa bbbb").data).length ∧
    containsSeq ((" ").data) (("aa bbbb").data) = true := by
  decide

/-- A Python slice of requested width `cs` holds at most `cs` elements,
for any (possibly negative) start index. -/
theorem pySlice_length_le (l : List α) (a : Int) (cs : Nat) :
    (pySlice l a (a + (cs : Int))).length ≤ cs := by
  unfold pySlice pyIdx
  split_ifs <;> simp [List.length_take, List.length_drop] <;> omega

/-- `rfind(' ')` returns an index below the length. -/
theorem rfindSpace_lt_length (l : List Char) :
    rfindSpace l < (l.length : Int) := by
  unfold rfindSpace
  cases h : List.findIdx? (fun c => c == ' ') l.reverse with
  | none =>
    show (-1 : Int) < (l.length : Int)
    omega
  | some i =>
    show (l.length : Int) - 1 - (i : Int) < (l.length : Int)
    omega

/-- Every chunk of the fixed-window loop has length at most `chunk_size`:
both the plain window and the word-boundary retraction are slices of width
at most `chunk_size`, and stripping only shrinks. -/
theorem fixedLoop_bound (text : List Char) (cs ov : Nat) :
    ∀ (fuel : Nat) (s : Int) (res : List (List Char)),
      fixedLoop text cs ov fuel s = some res → ∀ c ∈ res, c.length ≤ cs := by
  intro fuel
  induction fuel with
  | zero =>
    intro s res h c hc
    by_cases hs : s < (text.length : Int)
    · simp [fixedLoop, hs] at h
    · simp [fixedLoop, hs] at h; subst h; simp at hc
  | succ n ih =>
    intro s res h c hc
    by_cases hs : s < (text.length : Int)
    · rw [fixedLoop_succ, if_pos hs] at h
      cases hr : fixedLoop text cs ov n (fixedStep text cs ov s).2 with
      | none => rw [hr] at h; simp at h
      | some rest =>
        rw [hr] at h
        simp at h
        subst h
        rcases List.mem_cons.mp hc with hc | hc
        · subst hc
          have hw : (fixedStep text cs ov s).1.length ≤ cs := by
            unfold fixedStep
            dsimp only
            split_ifs with hcond
            · show (pySlice text s (s + rfindSpace (pySlice text s (s + (cs : Int))))).length ≤ cs
              have hlt := rfindSpace_lt_length (pySlice text s (s + (cs : Int)))
              have hsl := pySlice_length_le text s cs
              have hnn : 0 ≤ rfindSpace (pySlice text s (s + (cs : Int))) := by
                rcases hcond with ⟨-, -, h3⟩
                omega
              have heq : s + rfindSpace (pySlice text s (s + (cs : Int))) =
                  s + ((rfindSpace (pySlice text s (s + (cs : Int)))).toNat : Int) := by
                omega
              rw [heq]
              exact le_trans (pySlice_length_le text s _) (by omega)
            · exact pySlice_length_le text s cs
          exact le_trans (strip_length_le _) hw
        · exact ih _ rest hr c hc
    · simp [fixedLoop, hs] at h; subst h; simp at hc

/-- Every chunk of the character-level fallback loop has length at most
`chunk_size`. -/
theorem bySizeLoop_bound (text : List Char) (cs ov : Nat) :
    ∀ (fuel : Nat) (s : Int) (res : List (List Char)),
      bySizeLoop text cs ov fuel s = some res → ∀ c ∈ res, c.length ≤ cs := by
  intro fuel
  induction fuel with
  | zero =>
    intro s res h c hc
    by_cases hs : s < (text.length : Int)
    · simp [bySizeLoop, hs] at h
    · simp [bySizeLoop, hs] at h; subst h; simp at hc
  | succ n ih =>
    intro s res h c hc
    by_cases hs : s < (text.length : Int)
    · rw [bySizeLoop_succ, if_pos hs] at h
      cases hr : bySizeLoop text cs ov n (s + (cs : Int) - (ov : Int)) with
      | none => rw [hr] at h; simp at h
      | some rest =>
        rw [hr] at h
        simp at h
        subst h
        rcases List.mem_cons.mp hc with hc | hc
        · subst hc
          exact le_trans (strip_length_le _) (pySlice_length_le text s cs)
        · exact ih _ rest hr c hc
    · simp [bySizeLoop, hs] at h; subst h; simp at hc

/-- `_chunk_by_size` chunks are bounded by `chunk_size`. -/
theorem chunkBySize_bound (text : List Char) (cs ov : Nat)
    (res : List (List Char)) (h : chunkBySize text cs ov = some res) :
    ∀ c ∈ res, c.length ≤ cs := by
  intro c hc
  unfold chunkBySize at h
  cases hb : bySizeLoop text cs ov (text.length + 1) 0 with
  | none => rw [hb] at h; simp at h
  | some l =>
    rw [hb] at h
    simp at h
    subst h
    exact bySizeLoop_bound text cs ov _ _ l hb c (List.mem_filter.mp hc).1

/-- The overlap carry has length at most `overlap`. -/
theorem takeLast_length_le (n : Nat) (l : List Char) :
    (takeLast n l).length ≤ n := by
  unfold takeLast
  rw [List.length_drop]
  omega

/-- The packing loop of the recursive chunker keeps every flushed chunk
within `chunk_size + overlap`: a buffer is only ever an overlap carry
(at most `overlap` characters) followed by pieces accepted while the
running length was at most `chunk_size`. -/
theorem packLoop_bound (cs ov : Nat)
    (recur : List Char → Option (List (List Char)))
    (hrec : ∀ p sub, recur p = some sub → ∀ c ∈ sub, c.length ≤ cs + ov) :
    ∀ (ps chunks cur : List (List Char)) (curLen : Nat),
      curLen = (joinl cur).length → curLen ≤ cs + ov →
      (∀ c ∈ chunks, c.length ≤ cs + ov) →
      ∀ out curF, packLoop cs ov recur ps chunks cur curLen = some (out, curF) →
        (∀ c ∈ out, c.length ≤ cs + ov) ∧ (joinl curF).length ≤ cs + ov := by
  intro ps
  induction ps with
  | nil =>
    intro chunks cur curLen hinv hbound hacc out curF h
    simp [packLoop] at h
    obtain ⟨rfl, rfl⟩ := h
    exact ⟨hacc, hinv ▸ hbound⟩
  | cons p ps ih =>
    intro chunks cur curLen hinv hbound hacc out curF h
    have hflush : ∀ c ∈ chunks ++ [strip (joinl cur)], c.length ≤ cs + ov := by
      intro c hc
      rcases List.mem_append.mp hc with hc | hc
      · exact hacc c hc
      · simp at hc
        subst hc
        exact le_trans (strip_length_le _) (hinv ▸ hbound)
    by_cases hp : cs < p.length
    · rw [packLoop, if_pos hp] at h
      cases hre : recur p with
      | none => rw [hre] at h; simp at h
      | some sub =>
        rw [hre] at h
        have hacc1 : ∀ c ∈ (if cur ≠ [] then chunks ++ [strip (joinl cur)] else chunks) ++ sub,
            c.length ≤ cs + ov := by
          intro c hc
          rcases List.mem_append.mp hc with hc | hc
          · split_ifs at hc
            · exact hflush c hc
            · exact hacc c hc
          · exact hrec p sub hre c hc
        exact ih _ _ _ rfl (by simp [joinl]) hacc1 out curF h
    · rw [packLoop, if_neg hp] at h
      by_cases hov : cs < curLen + p.length ∧ cur ≠ []
      · rw [if_pos hov] at h
        set otext := if 0 < ov then takeLast ov (joinl cur) else [] with hotext
        have hole : otext.length ≤ ov := by
          rw [hotext]
          split_ifs
          · exact takeLast_length_le ov (joinl cur)
          · simp
        have hinv1 : otext.length + p.length =
            (joinl ((if otext ≠ [] then [otext] else []) ++ [p])).length := by
          split_ifs with ho
          · simp [joinl]
          · simp at ho
            simp [joinl, ho]
        have hb1 : otext.length + p.length ≤ cs + ov := by omega
        exact ih _ _ _ hinv1 hb1 hflush out curF h
      · rw [if_neg hov] at h
        have hcur0 : ¬ (cs < curLen + p.length) ∨ cur = [] := by
          by_cases h1 : cs < curLen + p.length
          · right
            by_contra h2
            exact hov ⟨h1, h2⟩
          · left; exact h1
        have hinv1 : curLen + p.length = (joinl (cur ++ [p])).length := by
          simp [joinl, hinv]
        have hb1 : curLen + p.length ≤ cs + ov := by
          rcases hcur0 with h1 | h1
          · omega
          · subst h1
            simp [joinl] at hinv
            omega
        exact ih _ _ _ hinv1 hb1 hacc out curF h

/-- Unfolding lemma for `splitRecAux` at positive fuel. -/
theorem splitRecAux_succ (cs ov fuel : Nat) (seps : List (List Char))
    (text : List Char) :
    splitRecAux cs ov (fuel + 1) seps text =
      if strip text = [] then some []
      else if text.length ≤ cs then some [strip text]
      else
        match seps with
        | [] => some []
        | sep :: rest =>
          if sep = [] then chunkBySize text cs ov
          else if containsSeq sep text then
            match packLoop cs ov (splitRecAux cs ov fuel rest)
                (attachSep sep (pySplit sep text)) [] [] 0 with
            | some (chunks, cur) => some (chunks ++ finalFlush cur)
            | none => none
          else splitRecAux cs ov fuel rest text := rfl

/-- Every chunk of the recursive splitter has length at most
`chunk_size + overlap`. -/
theorem splitRecAux_bound (cs ov : Nat) :
    ∀ (fuel : Nat) (seps : List (List Char)) (text : List Char)
      (res : List (List Char)),
      splitRecAux cs ov fuel seps text = some res →
      ∀ c ∈ res, c.length ≤ cs + ov := by
  intro fuel
  induction fuel with
  | zero => intro seps text res h; simp [splitRecAux] at h
  | succ n ih =>
    intro seps text res h c hc
    rw [splitRecAux_succ] at h
    by_cases h1 : strip text = []
    · rw [if_pos h1] at h
      simp at h
      subst h
      simp at hc
    · rw [if_neg h1] at h
      by_cases h2 : text.length ≤ cs
      · rw [if_pos h2] at h
        simp at h
        subst h
        simp at hc
        subst hc
        exact le_trans (strip_length_le _) (by omega)
      · rw [if_neg h2] at h
        cases seps with
        | nil => simp at h; subst h; simp at hc
        | cons sep rest =>
          simp only [] at h
          by_cases h3 : sep = []
          · rw [if_pos h3] at h
            have := chunkBySize_bound text cs ov res h c hc
            omega
          · rw [if_neg h3] at h
            by_cases h4 : containsSeq sep text = true
            · rw [if_pos h4] at h
              cases hp : packLoop cs ov (splitRecAux cs ov n rest)
                  (attachSep sep (pySplit sep text)) [] [] 0 with
              | none => rw [hp] at h; simp at h
              | some oc =>
                rw [hp] at h
                simp at h
                subst h
                have hb := packLoop_bound cs ov (splitRecAux cs ov n rest)
                  (fun p sub hs => ih rest p sub hs) _ [] [] 0 rfl (by omega)
                  (by simp) oc.1 oc.2 (by rw [hp])
                rcases List.mem_append.mp hc with hc | hc
                · exact hb.1 c hc
                · unfold finalFlush at hc
                  split_ifs at hc
                  · simp at hc
                    subst hc
                    exact le_trans (strip_length_le _) hb.2
                  · simp at hc
            · rw [if_neg h4] at h
              exact ih rest text res h c hc

/-! ### Semantic strategy size bound -/

theorem joinSpace_append_singleton (l : List (List Char)) (s : List Char)
    (h : l ≠ []) : joinSpace (l ++ [s]) = joinSpace l ++ ' ' :: s := by
  induction l with
  | nil => simp at h
  | cons x t ih =>
    cases t with
    | nil => rfl
    | cons y t2 =>
      show x ++ ' ' :: joinSpace ((y :: t2) ++ [s]) =
        (x ++ ' ' :: joinSpace (y :: t2)) ++ ' ' :: s
      rw [ih (by simp)]
      simp

/-- Chunks of `_split_large_chunk` are either within the bound or a single
input sentence: the buffer is flushed before it could combine an oversized
sentence with anything else. -/
theorem splitLargeAux_bound (maxS : Nat) :
    ∀ (ss cur : List (List Char)) (curLen : Nat),
      (cur = [] ∧ curLen = 0 ∨ cur ≠ [] ∧ curLen = (joinSpace cur).length + 1) →
      ((joinSpace cur).length ≤ maxS ∨ ∃ s, cur = [s]) →
      ∀ c ∈ splitLargeAux maxS ss cur curLen,
        c.length ≤ maxS ∨ c ∈ ss ∨ cur = [c] := by
  intro ss
  induction ss with
  | nil =>
    intro cur curLen hinv hbound c hc
    unfold splitLargeAux at hc
    split_ifs at hc with hcur
    · simp at hc
      subst hc
      rcases hbound with hb | ⟨s, rfl⟩
      · exact Or.inl hb
      · exact Or.inr (Or.inr rfl)
    · simp at hc
  | cons s ss ih =>
    intro cur curLen hinv hbound c hc
    rw [splitLargeAux] at hc
    by_cases hf : maxS < curLen + s.length ∧ cur ≠ []
    · rw [if_pos hf] at hc
      rcases List.mem_cons.mp hc with hc | hc
      · subst hc
        rcases hbound with hb | ⟨x, rfl⟩
        · exact Or.inl hb
        · exact Or.inr (Or.inr (by simp [joinSpace]))
      · have := ih [s] (s.length + 1)
          (Or.inr ⟨by simp, by simp [joinSpace]⟩) (Or.inr ⟨s, rfl⟩) c hc
        rcases this with h | h | h
        · exact Or.inl h
        · exact Or.inr (Or.inl (List.mem_cons_of_mem _ h))
        · simp at h
          subst h
          exact Or.inr (Or.inl (List.mem_cons_self _ _))
    · rw [if_neg hf] at hc
      have hinv1 : cur ++ [s] = [] ∧ curLen + s.length + 1 = 0 ∨
          cur ++ [s] ≠ [] ∧ curLen + s.length + 1 = (joinSpace (cur ++ [s])).length + 1 := by
        right
        refine ⟨by simp, ?_⟩
        rcases hinv with ⟨rfl, rfl⟩ | ⟨hne, he⟩
        · simp [joinSpace]
        · rw [joinSpace_append_singleton _ _ hne]
          simp
          omega
      have hbound1 : (joinSpace (cur ++ [s])).length ≤ maxS ∨ ∃ x, cur ++ [s] = [x] := by
        rcases hinv with ⟨rfl, rfl⟩ | ⟨hne, he⟩
        · exact Or.inr ⟨s, by simp [joinSpace]⟩
        · left
          rw [joinSpace_append_singleton _ _ hne]
          simp
          by_cases h1 : maxS < curLen + s.length
          · exact absurd ⟨h1, hne⟩ hf
          · omega
      have := ih (cur ++ [s]) (curLen + s.length + 1) hinv1 hbound1 c hc
      rcases this with h | h | h
      · exact Or.inl h
      · exact Or.inr (Or.inl (List.mem_cons_of_mem _ h))
      · rcases hinv with ⟨rfl, -⟩ | ⟨hne, -⟩
        · simp at h
          exact Or.inr (Or.inl (by rw [← h]; exact List.mem_cons_self _ _))
        · exfalso
          cases cur with
          | nil => exact hne rfl
          | cons a t =>
            cases t with
            | nil => simp at h
            | cons b t2 => simp at h

/-- Every chunk of the semantic strategy is within the size bound, or is
one of the source's sentences (an indivisible unit at this level), or is
the whole trimmed text (the at-most-one-sentence path). -/
theorem chunkTextSemantic_bound (pd : List Char → List Char → ℚ)
    (text : List Char) (maxS : Nat) (θ : ℚ) :
    ∀ c ∈ chunkTextSemantic pd text maxS θ,
      c.length ≤ maxS ∨ c ∈ sentencesOf text ∨ c = strip text := by
  intro c hc
  unfold chunkTextSemantic at hc
  by_cases hss : (sentencesOf text).length ≤ 1
  · rw [if_pos hss] at hc
    split_ifs at hc
    · simp at hc
    · simp at hc
      exact Or.inr (Or.inr hc)
  · rw [if_neg hss] at hc
    have hc2 := (List.mem_filter.mp hc).1
    rw [List.mem_flatMap] at hc2
    obtain ⟨csents, hcand, hcmem⟩ := hc2
    have hsub : ∀ x ∈ csents, x ∈ sentencesOf text := by
      intro x hx
      unfold semanticCandidates at hcand
      simp at hcand
      obtain ⟨i, -, hi⟩ := hcand
      rw [← hi] at hx
      unfold sliceN at hx
      exact ((List.take_sublist _ _).trans (List.drop_sublist _ _)).mem hx
    dsimp only at hcmem
    split_ifs at hcmem with hbig
    · have := splitLargeAux_bound maxS csents [] 0 (Or.inl ⟨rfl, rfl⟩)
        (Or.inl (by simp [joinSpace])) c hcmem
      rcases this with h | h | h
      · exact Or.inl h
      · exact Or.inr (Or.inl (hsub c h))
      · simp at h
    · simp at hcmem
      subst hcmem
      left
      have := strip_length_le (joinSpace csents)
      omega

/-- C1 (amended): fixed chunks are at most `chunk_size` long; semantic
chunks are at most `max_chunk_size` long or are a single sentence (or the
whole trimmed text when it has at most one sentence); but recursive chunks
are only bounded by `chunk_size + overlap` — after flushing, the overlap
carry is seeded and the next piece appended without a size re-check, so a
flushed buffer can exceed `chunk_size` by up to `overlap` characters (the
counterexample shows the stated bound fails). -/
theorem c1_size_bounds :
    (∀ (text : List Char) (cs ov : Nat) (res : List (List Char)),
      chunkTextFixed text cs ov = some res → ∀ c ∈ res, c.length ≤ cs) ∧
    (∀ (text : List Char) (cs ov : Nat) (res : List (List Char)),
      chunkTextRecursive text cs ov = some res → ∀ c ∈ res, c.length ≤ cs + ov) ∧
    (∀ (pd : List Char → List Char → ℚ) (text : List Char) (maxS : Nat) (θ : ℚ),
      ∀ c ∈ chunkTextSemantic pd text maxS θ,
        c.length ≤ maxS ∨ c ∈ sentencesOf text ∨ c = strip text) :=
  ⟨fun text cs ov res h => fixedLoop_bound text cs ov (text.length + 1) 0 res h,
   fun text cs ov res h => splitRecAux_bound cs ov (separators.length + 1)
     separators text res h,
   chunkTextSemantic_bound⟩

/-- C1 witness: the bounds at concrete inputs. -/
theorem c1_size_bounds_wit :
    (∀ c ∈ [("ab").data, ("b").data], c.length ≤ 2) ∧
    (∀ c ∈ [("aaaa").data, ("aa bbbb").data, ("bb cccc").data], c.length ≤ 5 + 3) :=
  ⟨c1_size_bounds.1 (("ab").data) 2 1 [("ab").data, ("b").data] (by decide),
   c1_size_bounds.2.1 (("aaaa bbbb cccc").data) 5 3
     [("aaaa").data, ("aa bbbb").data, ("bb cccc").data] (by decide)⟩

/-! ## C6 (confirmed): semantic breakpoints -/

/-- There is one consecutive-pair distance per adjacent sentence pair. -/
theorem consecDistances_length (pd : List Char → List Char → ℚ)
    (ss : List (List Char)) :
    (consecDistances pd ss).length = ss.length - 1 := by
  unfold consecDistances
  rw [List.length_map, List.length_zip, List.length_tail]
  omega

/-- First indices of enum entries are below the length. -/
theorem fst_lt_of_mem_enum {l : List ℚ} {x : Nat × ℚ} (h : x ∈ l.enum) :
    x.1 < l.length := by
  obtain ⟨hlt, -⟩ := List.getElem?_eq_some.mp (List.mem_enum_iff_getElem?.mp h)
  exact hlt

/-- The enum of a list is strictly increasing in its first components. -/
theorem pairwise_fst_lt_enum (l : List ℚ) :
    List.Pairwise (fun a b => a.1 < b.1) l.enum := by
  have h1 : List.Pairwise (· < ·) (List.map Prod.fst l.enum) := by
    rw [List.enum_map_fst]
    exact List.pairwise_lt_range l.length
  exact (List.pairwise_map.mp h1)

/-- C6: a breakpoint is declared after sentence `i` exactly when
`distance[i] > mean * (1 + threshold)`; the breakpoint list starts with 0,
ends with the sentence count, is strictly increasing, and the number of
candidate chunks before the oversized-subdivision pass is
`len(breakpoints) - 1`. -/
theorem c6_breakpoints (pd : List Char → List Char → ℚ) (ss : List (List Char))
    (θ : ℚ) (h2 : 2 ≤ ss.length) :
    (∀ i, i < (consecDistances pd ss).length →
      ((i + 1) ∈ semanticBreakpoints (consecDistances pd ss) θ ss.length ↔
        distMean (consecDistances pd ss) * (1 + θ) <
          (consecDistances pd ss).getD i 0)) ∧
    (semanticBreakpoints (consecDistances pd ss) θ ss.length).head? = some 0 ∧
    (semanticBreakpoints (consecDistances pd ss) θ ss.length).getLast? =
      some ss.length ∧
    List.Chain' (· < ·) (semanticBreakpoints (consecDistances pd ss) θ ss.length) ∧
    (semanticCandidates ss
        (semanticBreakpoints (consecDistances pd ss) θ ss.length)).length =
      (semanticBreakpoints (consecDistances pd ss) θ ss.length).length - 1 := by
  set ds := consecDistances pd ss with hds
  have hdlen : ds.length = ss.length - 1 := consecDistances_length pd ss
  refine ⟨?_, ?_, ?_, ?_, ?_⟩
  · intro i hi
    unfold semanticBreakpoints
    rw [List.cons_append, List.mem_cons, List.mem_append]
    constructor
    · rintro (h0 | hmid | hlast)
      · omega
      · rw [List.mem_map] at hmid
        obtain ⟨idc, hidc, heq⟩ := hmid
        have hf := List.mem_filter.mp hidc
        have hmem := List.mem_enum_iff_getElem?.mp hf.1
        have hi1 : idc.1 = i := by omega
        have hval : ds.getD i 0 = idc.2 := by
          rw [List.getD_eq_getElem?_getD, ← hi1, hmem]
          rfl
        rw [hval]
        simpa using hf.2
      · rw [List.mem_singleton] at hlast
        omega
    · intro hgt
      right; left
      rw [List.mem_map]
      refine ⟨(i, ds.getD i 0), ?_, rfl⟩
      rw [List.mem_filter]
      constructor
      · rw [List.mem_enum_iff_getElem?]
        simp only []
        rw [List.getD_eq_getElem ds 0 hi, List.getElem?_eq_getElem hi]
      · simpa using hgt
  · rfl
  · unfold semanticBreakpoints
    exact List.getLast?_concat _
  · rw [List.chain'_iff_pairwise]
    unfold semanticBreakpoints
    rw [List.pairwise_append]
    refine ⟨?_, by simp, ?_⟩
    · rw [List.pairwise_cons]
      constructor
      · intro a ha
        rw [List.mem_map] at ha
        obtain ⟨idc, -, heq⟩ := ha
        omega
      · have hp : List.Pairwise (fun a b => a.1 < b.1)
            (ds.enum.filter (fun idc => distMean ds * (1 + θ) < idc.2)) :=
          List.Pairwise.sublist (List.filter_sublist _) (pairwise_fst_lt_enum ds)
        rw [List.pairwise_map]
        exact hp.imp (by omega)
    · intro a ha b hb
      rw [List.mem_singleton] at hb
      subst hb
      rcases List.mem_cons.mp ha with rfl | ha
      · omega
      · rw [List.mem_map] at ha
        obtain ⟨idc, hidc, heq⟩ := ha
        have := fst_lt_of_mem_enum (List.mem_filter.mp hidc).1
        omega
  · unfold semanticCandidates
    rw [List.length_map, List.length_range]

/-- C6 witness: on three sentences with distances `[2, 4]` (mean 3) and
threshold 0, the breakpoint list is `[0, 2, 3]`. -/
theorem c6_breakpoints_wit :
    (semanticBreakpoints
        (consecDistances (fun _ b => (b.length : ℚ))
          [("A").data, ("BB").data, ("CCCC").data]) 0
        [("A").data, ("BB").data, ("CCCC").data].length).head? = some 0 :=
  (c6_breakpoints (fun _ b => (b.length : ℚ))
    [("A").data, ("BB").data, ("CCCC").data] 0 (by decide)).2.1

/-! ## C9 (corrected): the batch preparer -/

/-- Shifting a block of sequential ids by one position. -/
theorem docIds_shift (cid n : Nat) :
    (("doc_") ++ toString cid) ::
      (List.range n).map (fun k => ("doc_") ++ toString (cid + 1 + k)) =
      (List.range (n + 1)).map (fun k => ("doc_") ++ toString (cid + k)) := by
  rw [List.range_succ_eq_map, List.map_cons, List.map_map]
  congr 1
  apply List.map_congr_left
  intro k _
  simp only [Function.comp]
  congr 2
  omega

/-- Closed form of the per-document emit loop: filtered texts, raw-indexed
metadata, sequential ids, advanced counter. -/
theorem emitLoop_spec (name : List Char) (method : String) (total : Nat) :
    ∀ (chunks : List (List Char)) (i cid : Nat),
      emitLoop name method total chunks i cid =
        (chunks.filter (fun c => !(strip c).isEmpty),
         ((chunks.enumFrom i).filter (fun ic => !(strip ic.2).isEmpty)).map
           (fun ic => ⟨name, ic.1, total, method⟩),
         (List.range (chunks.filter (fun c => !(strip c).isEmpty)).length).map
           (fun k => ("doc_") ++ toString (cid + k)),
         cid + (chunks.filter (fun c => !(strip c).isEmpty)).length) := by
  intro chunks
  induction chunks with
  | nil => intro i cid; simp [emitLoop]
  | cons x xs ih =>
    intro i cid
    by_cases hx : strip x = []
    · have hb : (!(strip x).isEmpty) = false := by simp [hx]
      rw [emitLoop, if_neg (fun h => h hx), ih]
      simp [List.enumFrom, List.filter_cons, hb]
    · have hb : (!(strip x).isEmpty) = true := by
        simp [List.isEmpty_iff]
        exact hx
      rw [emitLoop, if_pos hx, ih]
      simp only [List.enumFrom, List.filter_cons, hb, if_pos, List.map_cons,
        List.length_cons, Prod.mk.injEq]
      refine ⟨trivial, trivial, ?_, by omega⟩
      rw [docIds_shift]

/-- The number of emitted metadata entries matches the number of emitted
texts, per document. -/
theorem filter_enumFrom_length :
    ∀ (l : List (List Char)) (i : Nat),
      ((l.enumFrom i).filter (fun ic => !(strip ic.2).isEmpty)).length =
        (l.filter (fun c => !(strip c).isEmpty)).length := by
  intro l
  induction l with
  | nil => intro i; rfl
  | cons x xs ih =>
    intro i
    by_cases hx : (!(strip x).isEmpty) = true <;>
      simp [List.enumFrom, List.filter_cons, hx, ih]

/-- `textsSpec` on a cons. -/
theorem textsSpec_cons (tok : Option Toknzr)
    (pd : Option (List Char → List Char → ℚ))
    (ext : Option (List Char → List (List Char))) (methodO : Option String)
    (d : List Char × List Char) (docs : List (List Char × List Char)) :
    textsSpec tok pd ext methodO (d :: docs) =
      (rawChunksOr tok pd ext methodO d.2).filter (fun c => !(strip c).isEmpty) ++
        textsSpec tok pd ext methodO docs := by
  simp [textsSpec]

/-- `metasSpec` on a cons. -/
theorem metasSpec_cons (tok : Option Toknzr)
    (pd : Option (List Char → List Char → ℚ))
    (ext : Option (List Char → List (List Char))) (methodO : Option String)
    (d : List Char × List Char) (docs : List (List Char × List Char)) :
    metasSpec tok pd ext methodO (d :: docs) =
      (((rawChunksOr tok pd ext methodO d.2).enumFrom 0).filter
          (fun ic => !(strip ic.2).isEmpty)).map
        (fun ic => ⟨d.1, ic.1, (rawChunksOr tok pd ext methodO d.2).length,
          methodO.getD ("recursive")⟩) ++
        metasSpec tok pd ext methodO docs := by
  simp [metasSpec]
  rfl

/-- Closed form of the document loop of `prepare_chunks_for_db`. -/
theorem prepareGo_spec (tok : Option Toknzr)
    (pd : Option (List Char → List Char → ℚ))
    (ext : Option (List Char → List (List Char))) (methodO : Option String) :
    ∀ (docs : List (List Char × List Char)) (cid : Nat) t m ids,
      prepareGo tok pd ext methodO docs cid = Except.ok (some (t, m, ids)) →
      t = textsSpec tok pd ext methodO docs ∧
      m = metasSpec tok pd ext methodO docs ∧
      ids = (List.range t.length).map (fun k => ("doc_") ++ toString (cid + k)) := by
  intro docs
  induction docs with
  | nil =>
    intro cid t m ids h
    rw [prepareGo] at h
    injection h with h
    injection h with h
    injection h with ht h
    injection h with hm hi
    subst ht hm hi
    refine ⟨rfl, rfl, rfl⟩
  | cons d rest ih =>
    intro cid t m ids h
    obtain ⟨name, content⟩ := d
    rw [prepareGo] at h
    cases hdisp : chunkDispatch tok pd ext content methodO none none with
    | error e => rw [hdisp] at h; simp at h
    | ok o =>
      cases o with
      | none => rw [hdisp] at h; simp at h
      | some chunks =>
        rw [hdisp] at h
        simp only [] at h
        rw [emitLoop_spec] at h
        cases hrest : prepareGo tok pd ext methodO rest
            (cid + (chunks.filter (fun c => !(strip c).isEmpty)).length) with
        | error e => rw [hrest] at h; simp at h
        | ok o2 =>
          cases o2 with
          | none => rw [hrest] at h; simp at h
          | some r2 =>
            rw [hrest] at h
            obtain ⟨t2, m2, ids2⟩ := r2
            obtain ⟨h1, h2, h3⟩ := ih _ t2 m2 ids2 (by rw [hrest])
            have hraw : rawChunksOr tok pd ext methodO content = chunks := by
              unfold rawChunksOr
              rw [hdisp]
            simp only [Except.ok.injEq, Option.some.injEq, Prod.mk.injEq] at h
            obtain ⟨ht, hm, hi⟩ := h
            subst ht hm hi
            refine ⟨?_, ?_, ?_⟩
            · rw [textsSpec_cons, hraw, h1]
            · rw [metasSpec_cons, hraw, h2]
            · show List.map (fun k => ("doc_") ++ toString (cid + k)) _ ++ ids2 = _
              rw [h3, h1]
              rw [List.length_append, List.range_add, List.map_append, List.map_map]
              congr 1
              apply List.map_congr_left
              intro k _
              simp only [Function.comp]
              congr 2
              omega

/-- C9 counterexample: for a document whose fixed-strategy chunk list is
`["a", "", "b"]`, the preparer emits two entries but their `chunk_index`
values are `0` and `2` (not `0, 1`) and `total_chunks` is `3` (not `2`):
the indices and the total count the raw list including the filtered blank
chunk. -/
theorem c9_cex :
    prepareChunksForDb none none none [(("a.txt").data, wsDoc)] (some ("fixed")) =
      Except.ok (some ([("a").data, ("b").data],
        [⟨("a.txt").data, 0, 3, "fixed"⟩, ⟨("a.txt").data, 2, 3, "fixed"⟩],
        [("doc_0"), ("doc_1")])) ∧
    [(⟨("a.txt").data, 0, 3, "fixed"⟩ : ChunkMeta),
      ⟨("a.txt").data, 2, 3, "fixed"⟩].map ChunkMeta.chunkIndex ≠ [0, 1] ∧
    (⟨("a.txt").data, 0, 3, "fixed"⟩ : ChunkMeta).totalChunks ≠ 2 := by
  refine ⟨by rfl, by decide, by decide⟩

/-- C9 (amended): the preparer returns three parallel equal-length
sequences with one entry per non-blank chunk, and ids that increment
across the whole batch in order (`doc_0, doc_1, ...`); but `chunk_index`
is the chunk's position in the raw strategy output (blank chunks included)
and `total_chunks` is the raw output length, so for a document with
filtered blank chunks the emitted indices can skip values and
`total_chunks` can exceed the number of emitted entries. -/
theorem c9_prepare (tok : Option Toknzr)
    (pd : Option (List Char → List Char → ℚ))
    (ext : Option (List Char → List (List Char))) (methodO : Option String)
    (docs : List (List Char × List Char)) (t : List (List Char))
    (m : List ChunkMeta) (ids : List String)
    (h : prepareChunksForDb tok pd ext docs methodO = Except.ok (some (t, m, ids))) :
    t.length = m.length ∧ ids.length = m.length ∧
    ids = (List.range t.length).map (fun k => ("doc_") ++ toString k) ∧
    t = textsSpec tok pd ext methodO docs ∧
    m = metasSpec tok pd ext methodO docs := by
  obtain ⟨h1, h2, h3⟩ := prepareGo_spec tok pd ext methodO docs 0 t m ids h
  have hlen : t.length = m.length := by
    rw [h1, h2]
    clear h h1 h2 h3
    induction docs with
    | nil => rfl
    | cons d rest ihd =>
      rw [textsSpec_cons, metasSpec_cons, List.length_append, List.length_append,
        List.length_map, filter_enumFrom_length, ihd]
  refine ⟨hlen, ?_, ?_, h1, h2⟩
  · rw [h3, List.length_map, List.length_range, hlen]
  · rw [h3]
    apply List.map_congr_left
    intro k _
    simp

/-- C9 witness: the closed form at a concrete two-document batch
(ids increment across documents). -/
theorem c9_prepare_wit :
    [("doc_0"), ("doc_1")] =
      (List.range ([("x y").data, ("z").data].length)).map
        (fun k => ("doc_") ++ toString k) :=
  (c9_prepare none none none (some ("recursive"))
    [(("a.txt").data, ("x y").data), (("b.txt").data, ("z").data)]
    [("x y").data, ("z").data]
    [⟨("a.txt").data, 0, 1, "recursive"⟩, ⟨("b.txt").data, 0, 1, "recursive"⟩]
    [("doc_0"), ("doc_1")] (by rfl)).2.2.1

/-! ## C5 (corrected): reconstruction -/

/-- The fixed loop can also stall for `overlap < chunk_size`: on
`"bbbbbbbbb cc"` with `(10, 9)` the word-boundary retraction moves `end`
back to index 9 and `start = end - overlap` returns to 0. -/
theorem fixedLoop_stuck_bb :
    ∀ fuel, fixedLoop (("bbbbbbbbb cc").data) 10 9 fuel 0 = none :=
  fixedLoop_stuck (("bbbbbbbbb cc").data) 10 9 0 (by decide) (by decide)

/-- C5 counterexample: at the valid parameters
`(chunk_size, overlap) = (10, 9)` (overlap < chunk_size) the fixed chunker
never returns on `"bbbbbbbbb cc"` — the loop repeats the same window
forever — so no chunk sequence exists to re-assemble, refuting "for all
valid (size, overlap)". -/
theorem c5_cex : chunkTextFixed (("bbbbbbbbb cc").data) 10 9 = none :=
  fixedLoop_stuck_bb 13

/-- One Python slice with non-negative bounds is an ordinary
`take`-after-`drop`. -/
theorem pySlice_nonneg_eq (l : List α) (a b : Int) (ha : 0 ≤ a) (hb : 0 ≤ b) :
    pySlice l a b = (l.drop a.toNat).take (b.toNat - a.toNat) := by
  unfold pySlice pyIdx
  rw [if_neg (by omega), if_neg (by omega)]
  by_cases hal : a.toNat ≤ l.length
  · rw [min_eq_left hal]
    apply List.take_eq_take.mpr
    rw [List.length_drop]
    omega
  · have h1 : min a.toNat l.length = l.length := by omega
    have h2 : l.drop a.toNat = [] := List.drop_eq_nil_of_le (by omega)
    have h3 : l.drop l.length = [] := List.drop_eq_nil_of_le le_rfl
    rw [h1, h2, h3]
    simp

/-- The stripped loop is the raw loop with every window stripped. -/
theorem fixedLoop_eq_raw (text : List Char) (cs ov : Nat) :
    ∀ (fuel : Nat) (s : Int),
      fixedLoop text cs ov fuel s =
        Option.map (List.map strip) (fixedLoopRaw text cs ov fuel s) := by
  intro fuel
  induction fuel with
  | zero =>
    intro s
    by_cases hs : s < (text.length : Int) <;>
      simp [fixedLoop, fixedLoopRaw, hs]
  | succ n ih =>
    intro s
    by_cases hs : s < (text.length : Int)
    · rw [fixedLoop_succ, if_pos hs]
      show _ = Option.map _ (fixedLoopRaw text cs ov (n + 1) s)
      rw [show fixedLoopRaw text cs ov (n + 1) s =
        if s < (text.length : Int) then
          match fixedLoopRaw text cs ov n (fixedStep text cs ov s).2 with
          | some rest => some ((fixedStep text cs ov s).1 :: rest)
          | none => none
        else some [] from rfl, if_pos hs]
      rw [ih]
      cases fixedLoopRaw text cs ov n (fixedStep text cs ov s).2 <;> rfl
    · simp [fixedLoop, fixedLoopRaw, hs]

/-- Under `10 * overlap ≤ 7 * chunk_size` every fixed-window iteration
advances `start` by at least one. -/
theorem fixedStep_spec (text : List Char) (cs ov : Nat) (s : Int)
    (h1 : 1 ≤ cs) (h2 : 10 * ov ≤ 7 * cs) :
    ∃ e : Int, fixedStep text cs ov s = (pySlice text s e, e - (ov : Int)) ∧
      s + (ov : Int) < e := by
  unfold fixedStep
  dsimp only
  split_ifs with hcond
  · refine ⟨s + rfindSpace (pySlice text s (s + (cs : Int))), rfl, ?_⟩
    rcases hcond with ⟨-, -, h3⟩
    omega
  · exact ⟨s + (cs : Int), rfl, by omega⟩

/-- Under the progress condition the raw fixed loop terminates whenever the
fuel exceeds the remaining distance. -/
theorem fixedLoopRaw_total (text : List Char) (cs ov : Nat)
    (h1 : 1 ≤ cs) (h2 : 10 * ov ≤ 7 * cs) :
    ∀ (fuel : Nat) (s : Int), 0 ≤ s → (text.length : Int) < s + fuel →
      ∃ ws, fixedLoopRaw text cs ov fuel s = some ws := by
  intro fuel
  induction fuel with
  | zero =>
    intro s hs hf
    refine ⟨[], ?_⟩
    simp [fixedLoopRaw]
    omega
  | succ n ih =>
    intro s hs hf
    by_cases hlt : s < (text.length : Int)
    · obtain ⟨e, hstep, he⟩ := fixedStep_spec text cs ov s h1 h2
      obtain ⟨ws, hws⟩ := ih (e - (ov : Int)) (by omega) (by push_cast at hf ⊢; omega)
      refine ⟨(fixedStep text cs ov s).1 :: ws, ?_⟩
      rw [show fixedLoopRaw text cs ov (n + 1) s =
        if s < (text.length : Int) then
          match fixedLoopRaw text cs ov n (fixedStep text cs ov s).2 with
          | some rest => some ((fixedStep text cs ov s).1 :: rest)
          | none => none
        else some [] from rfl, if_pos hlt]
      rw [show (fixedStep text cs ov s).2 = e - (ov : Int) by rw [hstep]]
      rw [hws]
    · refine ⟨[], ?_⟩
      cases n <;> simp [fixedLoopRaw, hlt]

/-- Dropping the overlapped prefix of every window and concatenating
recovers the text from position `start + overlap` on. -/
theorem fixedLoopRaw_recon (text : List Char) (cs ov : Nat)
    (h1 : 1 ≤ cs) (h2 : 10 * ov ≤ 7 * cs) :
    ∀ (fuel : Nat) (s : Int) (ws : List (List Char)), 0 ≤ s →
      fixedLoopRaw text cs ov fuel s = some ws →
      (ws.map (List.drop ov)).flatten = text.drop (s.toNat + ov) := by
  intro fuel
  induction fuel with
  | zero =>
    intro s ws hs h
    by_cases hlt : s < (text.length : Int)
    · simp [fixedLoopRaw, hlt] at h
    · simp [fixedLoopRaw, hlt] at h
      subst h
      rw [eq_comm]
      simp only [List.map_nil, List.flatten_nil]
      apply List.drop_eq_nil_of_le
      omega
  | succ n ih =>
    intro s ws hs h
    by_cases hlt : s < (text.length : Int)
    · rw [show fixedLoopRaw text cs ov (n + 1) s =
        if s < (text.length : Int) then
          match fixedLoopRaw text cs ov n (fixedStep text cs ov s).2 with
          | some rest => some ((fixedStep text cs ov s).1 :: rest)
          | none => none
        else some [] from rfl, if_pos hlt] at h
      obtain ⟨e, hstep, he⟩ := fixedStep_spec text cs ov s h1 h2
      rw [hstep] at h
      cases hr : fixedLoopRaw text cs ov n (e - (ov : Int)) with
      | none => rw [hr] at h; simp at h
      | some rest =>
        rw [hr] at h
        simp only [Option.some.injEq] at h
        subst h
        have hrest := ih (e - (ov : Int)) rest (by omega) hr
        have hidx : (e - (ov : Int)).toNat + ov = e.toNat := by omega
        rw [hidx] at hrest
        simp only [List.map_cons, List.flatten_cons, hrest]
        have hsl : pySlice text s e = (text.drop s.toNat).take (e.toNat - s.toNat) :=
          pySlice_nonneg_eq text s e hs (by omega)
        rw [hsl, List.drop_take, List.drop_drop]
        have hsplit : text.drop e.toNat =
            ((text.drop (s.toNat + ov)).drop (e.toNat - s.toNat - ov)) := by
          rw [List.drop_drop]
          congr 1
          omega
        rw [hsplit, List.take_append_drop]
    · cases n <;> simp [fixedLoopRaw, hlt] at h <;>
        · subst h
          rw [eq_comm]
          simp only [List.map_nil, List.flatten_nil]
          apply List.drop_eq_nil_of_le
          omega

/-- The windows of the raw fixed loop re-assemble (ignoring the overlap
duplicates) into the text from position `start` on. -/
theorem fixedLoopRaw_overlapJoin (text : List Char) (cs ov : Nat)
    (h1 : 1 ≤ cs) (h2 : 10 * ov ≤ 7 * cs) :
    ∀ (fuel : Nat) (s : Int) (ws : List (List Char)), 0 ≤ s →
      fixedLoopRaw text cs ov fuel s = some ws →
      overlapJoin ov ws = text.drop s.toNat := by
  intro fuel s ws hs h
  cases fuel with
  | zero =>
    by_cases hlt : s < (text.length : Int)
    · simp [fixedLoopRaw, hlt] at h
    · simp [fixedLoopRaw, hlt] at h
      subst h
      rw [eq_comm]
      apply List.drop_eq_nil_of_le
      omega
  | succ n =>
    by_cases hlt : s < (text.length : Int)
    · rw [show fixedLoopRaw text cs ov (n + 1) s =
        if s < (text.length : Int) then
          match fixedLoopRaw text cs ov n (fixedStep text cs ov s).2 with
          | some rest => some ((fixedStep text cs ov s).1 :: rest)
          | none => none
        else some [] from rfl, if_pos hlt] at h
      obtain ⟨e, hstep, he⟩ := fixedStep_spec text cs ov s h1 h2
      rw [hstep] at h
      cases hr : fixedLoopRaw text cs ov n (e - (ov : Int)) with
      | none => rw [hr] at h; simp at h
      | some rest =>
        rw [hr] at h
        simp only [Option.some.injEq] at h
        subst h
        have hrest := fixedLoopRaw_recon text cs ov h1 h2 n (e - (ov : Int)) rest
          (by omega) hr
        have hidx : (e - (ov : Int)).toNat + ov = e.toNat := by omega
        rw [hidx] at hrest
        show pySlice text s e ++ (rest.map (List.drop ov)).flatten = text.drop s.toNat
        rw [hrest]
        have hsl : pySlice text s e = (text.drop s.toNat).take (e.toNat - s.toNat) :=
          pySlice_nonneg_eq text s e hs (by omega)
        have hsplit : text.drop e.toNat =
            ((text.drop s.toNat).drop (e.toNat - s.toNat)) := by
          rw [List.drop_drop]
          congr 1
          omega
        rw [hsl, hsplit, List.take_append_drop]
    · cases n <;> simp [fixedLoopRaw, hlt] at h <;>
        · subst h
          rw [eq_comm]
          apply List.drop_eq_nil_of_le
          omega

/-! ### Reconstruction of `text.split(sep)` with separators re-attached -/

/-- Unfolding lemma for `splitOnAux` at positive fuel, cons text. -/
theorem splitOnAux_succ_cons (sep : List Char) (fuel : Nat) (acc : List Char)
    (c : Char) (rest : List Char) :
    splitOnAux sep (fuel + 1) acc (c :: rest) =
      if sep ≠ [] ∧ sep.isPrefixOf (c :: rest) then
        acc.reverse :: splitOnAux sep fuel [] ((c :: rest).drop sep.length)
      else splitOnAux sep fuel (c :: acc) rest := rfl

theorem splitOnAux_ne_nil (sep : List Char) :
    ∀ (fuel : Nat) (acc l : List Char), splitOnAux sep fuel acc l ≠ [] := by
  intro fuel
  induction fuel with
  | zero => intro acc l; simp [splitOnAux]
  | succ n ih =>
    intro acc l
    cases l with
    | nil => simp [splitOnAux]
    | cons c rest =>
      rw [splitOnAux_succ_cons]
      split_ifs
      · simp
      · exact ih _ _

theorem attachSep_cons_of_ne (sep x : List Char) (ys : List (List Char))
    (h : ys ≠ []) : attachSep sep (x :: ys) = (x ++ sep) :: attachSep sep ys := by
  cases ys with
  | nil => exact absurd rfl h
  | cons y t => rfl

/-- Splitting and re-attaching the separator reconstitutes the input:
`"".join(pieces) = acc.reverse + l`. -/
theorem splitOnAux_reconstruct (sep : List Char) :
    ∀ (fuel : Nat) (acc l : List Char), l.length < fuel →
      joinl (attachSep sep (splitOnAux sep fuel acc l)) = acc.reverse ++ l := by
  intro fuel
  induction fuel with
  | zero => intro acc l h; omega
  | succ n ih =>
    intro acc l hl
    cases l with
    | nil =>
      show joinl (attachSep sep [acc.reverse]) = acc.reverse ++ []
      simp [attachSep, joinl]
    | cons c rest =>
      rw [splitOnAux_succ_cons]
      split_ifs with hp
      · rw [attachSep_cons_of_ne sep _ _ (splitOnAux_ne_nil sep n [] _)]
        rw [show joinl ((acc.reverse ++ sep) ::
            attachSep sep (splitOnAux sep n [] ((c :: rest).drop sep.length))) =
          (acc.reverse ++ sep) ++
            joinl (attachSep sep (splitOnAux sep n [] ((c :: rest).drop sep.length)))
          from rfl]
        have hlen : ((c :: rest).drop sep.length).length < n := by
          rw [List.length_drop]
          have : 0 < sep.length := List.length_pos.mpr hp.1
          simp only [List.length_cons] at hl ⊢
          omega
        rw [ih [] ((c :: rest).drop sep.length) hlen]
        have hpre : sep ++ (c :: rest).drop sep.length = c :: rest := by
          obtain ⟨t, ht⟩ := List.isPrefixOf_iff_prefix.mp hp.2
          rw [← ht, List.drop_left]
        simp only [List.reverse_nil, List.nil_append, List.append_assoc]
        rw [hpre]
      · rw [ih (c :: acc) rest (by simp only [List.length_cons] at hl; omega)]
        simp

/-- `"".join` of the separator-attached pieces of `text.split(sep)` is
`text` again. -/
theorem pySplit_reconstruct (sep text : List Char) :
    joinl (attachSep sep (pySplit sep text)) = text := by
  unfold pySplit
  rw [splitOnAux_reconstruct sep (text.length + 1) [] text (by omega)]
  simp

/-- Filtering out empty strings does not change the concatenation. -/
theorem joinl_filter_isEmpty (l : List (List Char)) :
    joinl (l.filter (fun c => !c.isEmpty)) = joinl l := by
  induction l with
  | nil => rfl
  | cons x t ih =>
    by_cases hx : x = []
    · subst hx
      simpa [List.filter_cons, joinl] using ih
    · have hb : (!x.isEmpty) = true := by simp [List.isEmpty_iff, hx]
      simp only [List.filter_cons, hb, if_pos]
      show x ++ joinl (t.filter (fun c => !c.isEmpty)) = x ++ joinl t
      rw [ih]

/-! ### `_chunk_by_size`: no content loss -/

/-- With `overlap ≤ chunk_size`, the character fallback covers the whole
remaining text: its chunks contain (in order) every non-whitespace
character from position `start` on. -/
theorem bySizeLoop_subl (text : List Char) (cs ov : Nat) (hov : ov ≤ cs) :
    ∀ (fuel : Nat) (s : Int) (res : List (List Char)), 0 ≤ s →
      bySizeLoop text cs ov fuel s = some res →
      (wsFree (text.drop s.toNat)).Sublist (wsFree (joinl res)) := by
  intro fuel
  induction fuel with
  | zero =>
    intro s res hs h
    by_cases hlt : s < (text.length : Int)
    · simp [bySizeLoop, hlt] at h
    · simp [bySizeLoop, hlt] at h
      subst h
      rw [List.drop_eq_nil_of_le (by omega)]
      exact List.nil_sublist _
  | succ n ih =>
    intro s res hs h
    by_cases hlt : s < (text.length : Int)
    · rw [bySizeLoop_succ, if_pos hlt] at h
      cases hr : bySizeLoop text cs ov n (s + (cs : Int) - (ov : Int)) with
      | none => rw [hr] at h; simp at h
      | some rest =>
        rw [hr] at h
        simp only [Option.some.injEq] at h
        subst h
        have h2 := ih (s + (cs : Int) - (ov : Int)) rest (by omega) hr
        have hidx : (s + (cs : Int) - (ov : Int)).toNat = s.toNat + (cs - ov) := by
          omega
        rw [hidx] at h2
        have hsplit : text.drop s.toNat =
            (text.drop s.toNat).take (cs - ov) ++ text.drop (s.toNat + (cs - ov)) := by
          conv_lhs => rw [← List.take_append_drop (cs - ov) (text.drop s.toNat)]
          rw [List.drop_drop]
        rw [hsplit, wsFree_append]
        rw [show joinl (strip (pySlice text s (s + (cs : Int))) :: rest) =
          strip (pySlice text s (s + (cs : Int))) ++ joinl rest from rfl,
          wsFree_append, wsFree_strip]
        apply List.Sublist.append
        · apply List.Sublist.filter
          rw [pySlice_nonneg_eq text s (s + (cs : Int)) hs (by omega)]
          rw [show (s + (cs : Int)).toNat - s.toNat = cs by omega]
          rw [show (text.drop s.toNat).take (cs - ov) =
            ((text.drop s.toNat).take cs).take (cs - ov) by
              rw [List.take_take]
              congr 1
              omega]
          exact List.take_sublist _ _
        · exact h2
    · simp [bySizeLoop, hlt] at h
      subst h
      rw [List.drop_eq_nil_of_le (by omega)]
      exact List.nil_sublist _

theorem chunkBySize_subl (text : List Char) (cs ov : Nat) (hov : ov ≤ cs)
    (res : List (List Char)) (h : chunkBySize text cs ov = some res) :
    (wsFree text).Sublist (wsFree (joinl res)) := by
  unfold chunkBySize at h
  cases hb : bySizeLoop text cs ov (text.length + 1) 0 with
  | none => rw [hb] at h; simp at h
  | some l =>
    rw [hb] at h
    simp at h
    subst h
    rw [joinl_filter_isEmpty]
    have := bySizeLoop_subl text cs ov hov _ 0 l le_rfl hb
    simpa using this

/-- With `overlap = 0`, the character fallback reproduces exactly the
non-whitespace content of the remaining text. -/
theorem bySizeLoop_exact (text : List Char) (cs : Nat) :
    ∀ (fuel : Nat) (s : Int) (res : List (List Char)), 0 ≤ s →
      bySizeLoop text cs 0 fuel s = some res →
      wsFree (joinl res) = wsFree (text.drop s.toNat) := by
  intro fuel
  induction fuel with
  | zero =>
    intro s res hs h
    by_cases hlt : s < (text.length : Int)
    · simp [bySizeLoop, hlt] at h
    · simp [bySizeLoop, hlt] at h
      subst h
      rw [List.drop_eq_nil_of_le (by omega)]
      rfl
  | succ n ih =>
    intro s res hs h
    by_cases hlt : s < (text.length : Int)
    · rw [bySizeLoop_succ, if_pos hlt] at h
      cases hr : bySizeLoop text cs 0 n (s + (cs : Int) - (0 : Nat)) with
      | none => rw [hr] at h; simp at h
      | some rest =>
        rw [hr] at h
        simp only [Option.some.injEq] at h
        subst h
        have h2 := ih (s + (cs : Int) - ((0 : Nat) : Int)) rest (by omega) hr
        have hidx : (s + (cs : Int) - ((0 : Nat) : Int)).toNat = s.toNat + cs := by
          omega
        rw [hidx] at h2
        rw [show joinl (strip (pySlice text s (s + (cs : Int))) :: rest) =
          strip (pySlice text s (s + (cs : Int))) ++ joinl rest from rfl,
          wsFree_append, wsFree_strip, h2]
        rw [pySlice_nonneg_eq text s (s + (cs : Int)) hs (by omega)]
        rw [show (s + (cs : Int)).toNat - s.toNat = cs by omega]
        rw [show text.drop (s.toNat + cs) = (text.drop s.toNat).drop cs by
          rw [List.drop_drop]]
        rw [← wsFree_append, List.take_append_drop]
    · simp [bySizeLoop, hlt] at h
      subst h
      rw [List.drop_eq_nil_of_le (by omega)]
      rfl

theorem chunkBySize_exact (text : List Char) (cs : Nat)
    (res : List (List Char)) (h : chunkBySize text cs 0 = some res) :
    wsFree (joinl res) = wsFree text := by
  unfold chunkBySize at h
  cases hb : bySizeLoop text cs 0 (text.length + 1) 0 with
  | none => rw [hb] at h; simp at h
  | some l =>
    rw [hb] at h
    simp at h
    subst h
    rw [joinl_filter_isEmpty]
    have := bySizeLoop_exact text cs _ 0 l le_rfl hb
    simpa using this

/-! ### The packing loop: no content loss -/

theorem joinl_append (a b : List (List Char)) :
    joinl (a ++ b) = joinl a ++ joinl b :=
  List.flatten_append a b

theorem joinl_cons (x : List Char) (l : List (List Char)) :
    joinl (x :: l) = x ++ joinl l := rfl

theorem joinl_nil : joinl [] = [] := rfl

theorem cur1_of_nil (otext : List Char) (hot : otext = []) :
    (if otext ≠ [] then [otext] else []) = ([] : List (List Char)) := by
  simp [hot]

theorem cur1_of_ne (otext : List Char) (hot : otext ≠ []) :
    (if otext ≠ [] then [otext] else []) = [otext] := by
  simp [hot]

/-- The packing loop preserves, in order, all non-whitespace content of the
buffer and the remaining pieces; the overlap carries only insert duplicated
segments. -/
theorem packLoop_subl (cs ov : Nat)
    (recur : List Char → Option (List (List Char)))
    (hrec : ∀ p sub, recur p = some sub →
      (wsFree p).Sublist (wsFree (joinl sub))) :
    ∀ (ps chunks cur : List (List Char)) (curLen : Nat)
      (out curF : List (List Char)),
      packLoop cs ov recur ps chunks cur curLen = some (out, curF) →
      (wsFree (joinl chunks ++ joinl cur ++ joinl ps)).Sublist
        (wsFree (joinl out ++ joinl curF)) := by
  intro ps
  induction ps with
  | nil =>
    intro chunks cur curLen out curF h
    simp [packLoop] at h
    obtain ⟨rfl, rfl⟩ := h
    simp only [joinl_nil, List.append_nil]
    exact List.Sublist.refl _
  | cons p ps ih =>
    intro chunks cur curLen out curF h
    by_cases hp : cs < p.length
    · rw [packLoop, if_pos hp] at h
      cases hre : recur p with
      | none => rw [hre] at h; simp at h
      | some sub =>
        rw [hre] at h
        have hps := hrec p sub hre
        by_cases hcur : cur = []
        · subst hcur
          rw [if_neg (by simp)] at h
          have h2 := ih _ _ _ out curF h
          refine List.Sublist.trans ?_ h2
          simp only [joinl_append, joinl_cons, joinl_nil, wsFree_append,
            wsFree_strip, List.append_nil, List.nil_append, List.append_assoc]
          exact List.Sublist.append (List.Sublist.refl _)
            (List.Sublist.append hps (List.Sublist.refl _))
        · rw [if_pos hcur] at h
          have h2 := ih _ _ _ out curF h
          refine List.Sublist.trans ?_ h2
          simp only [joinl_append, joinl_cons, joinl_nil, wsFree_append,
            wsFree_strip, List.append_nil, List.nil_append, List.append_assoc]
          exact List.Sublist.append (List.Sublist.refl _)
            (List.Sublist.append (List.Sublist.refl _)
              (List.Sublist.append hps (List.Sublist.refl _)))
    · rw [packLoop, if_neg hp] at h
      by_cases hov2 : cs < curLen + p.length ∧ cur ≠ []
      · rw [if_pos hov2] at h
        dsimp only at h
        set otext := if 0 < ov then takeLast ov (joinl cur) else [] with hotext
        by_cases hot : otext = []
        · rw [cur1_of_nil otext hot, hot] at h
          have h2 := ih _ _ _ out curF h
          refine List.Sublist.trans ?_ h2
          simp only [joinl_append, joinl_cons, joinl_nil, wsFree_append,
            wsFree_strip, List.append_nil, List.nil_append, List.append_assoc]
          exact List.Sublist.refl _
        · rw [cur1_of_ne otext hot] at h
          have h2 := ih _ _ _ out curF h
          refine List.Sublist.trans ?_ h2
          simp only [joinl_append, joinl_cons, joinl_nil, wsFree_append,
            wsFree_strip, List.append_nil, List.nil_append, List.append_assoc]
          exact List.Sublist.append (List.Sublist.refl _)
            (List.Sublist.append (List.Sublist.refl _)
              (List.sublist_append_right _ _))
      · rw [if_neg hov2] at h
        have h2 := ih _ _ _ out curF h
        refine List.Sublist.trans ?_ h2
        simp only [joinl_append, joinl_cons, joinl_nil, wsFree_append,
          wsFree_strip, List.append_nil, List.nil_append, List.append_assoc]
        exact List.Sublist.refl _

/-- With `overlap = 0` there is no carry, and the packing loop exactly
redistributes the non-whitespace content of the buffer and the pieces. -/
theorem packLoop_exact (cs : Nat)
    (recur : List Char → Option (List (List Char)))
    (hrec : ∀ p sub, recur p = some sub → wsFree (joinl sub) = wsFree p) :
    ∀ (ps chunks cur : List (List Char)) (curLen : Nat)
      (out curF : List (List Char)),
      packLoop cs 0 recur ps chunks cur curLen = some (out, curF) →
      wsFree (joinl out ++ joinl curF) =
        wsFree (joinl chunks ++ joinl cur ++ joinl ps) := by
  intro ps
  induction ps with
  | nil =>
    intro chunks cur curLen out curF h
    simp [packLoop] at h
    obtain ⟨rfl, rfl⟩ := h
    simp only [joinl_nil, List.append_nil]
  | cons p ps ih =>
    intro chunks cur curLen out curF h
    by_cases hp : cs < p.length
    · rw [packLoop, if_pos hp] at h
      cases hre : recur p with
      | none => rw [hre] at h; simp at h
      | some sub =>
        rw [hre] at h
        have hps := hrec p sub hre
        by_cases hcur : cur = []
        · subst hcur
          rw [if_neg (by simp)] at h
          have h2 := ih _ _ _ out curF h
          rw [h2]
          simp only [joinl_append, joinl_cons, joinl_nil, wsFree_append,
            wsFree_strip, List.append_nil, List.nil_append, List.append_assoc, hps]
        · rw [if_pos hcur] at h
          have h2 := ih _ _ _ out curF h
          rw [h2]
          simp only [joinl_append, joinl_cons, joinl_nil, wsFree_append,
            wsFree_strip, List.append_nil, List.nil_append, List.append_assoc, hps]
    · rw [packLoop, if_neg hp] at h
      by_cases hov2 : cs < curLen + p.length ∧ cur ≠ []
      · rw [if_pos hov2] at h
        dsimp only at h
        rw [show (if 0 < 0 then takeLast 0 (joinl cur) else []) = ([] : List Char)
          from rfl] at h
        rw [cur1_of_nil [] rfl] at h
        have h2 := ih _ _ _ out curF h
        rw [h2]
        simp only [joinl_append, joinl_cons, joinl_nil, wsFree_append,
          wsFree_strip, List.append_nil, List.nil_append, List.append_assoc]
      · rw [if_neg hov2] at h
        have h2 := ih _ _ _ out curF h
        rw [h2]
        simp only [joinl_append, joinl_cons, joinl_nil, wsFree_append,
          wsFree_strip, List.append_nil, List.nil_append, List.append_assoc]

/-- Appending the final flush does not change the non-whitespace content of
the emitted chunks plus the final buffer. -/
theorem finalFlush_wsFree (out curF : List (List Char)) :
    wsFree (joinl (out ++ finalFlush curF)) = wsFree (joinl out ++ joinl curF) := by
  unfold finalFlush
  split_ifs with hf
  · simp only [joinl_append, joinl_cons, joinl_nil, wsFree_append, wsFree_strip,
      List.append_nil]
  · rw [not_and_or] at hf
    rcases hf with hf | hf
    · simp only [ne_eq, not_not] at hf
      subst hf
      simp [joinl_nil]
    · simp only [ne_eq, not_not] at hf
      have := wsFree_of_strip_nil hf
      simp only [joinl_append, joinl_nil, List.append_nil, wsFree_append, this]

/-- The recursive splitter never loses or reorders non-whitespace content
(the overlap carry only duplicates): induction over the separator tiers,
which always end with the character-level tier. -/
theorem splitRecAux_subl (cs ov : Nat) (hov : ov ≤ cs) :
    ∀ (fuel : Nat) (seps : List (List Char)) (text : List Char)
      (res : List (List Char)),
      seps.getLast? = some [] →
      splitRecAux cs ov fuel seps text = some res →
      (wsFree text).Sublist (wsFree (joinl res)) := by
  intro fuel
  induction fuel with
  | zero => intro seps text res hend h; simp [splitRecAux] at h
  | succ n ih =>
    intro seps text res hend h
    rw [splitRecAux_succ] at h
    by_cases h1 : strip text = []
    · rw [if_pos h1] at h
      simp at h
      subst h
      rw [wsFree_of_strip_nil h1]
      exact List.nil_sublist _
    · rw [if_neg h1] at h
      by_cases hsmall : text.length ≤ cs
      · rw [if_pos hsmall] at h
        simp at h
        subst h
        simp only [joinl_cons, joinl_nil, List.append_nil, wsFree_strip]
        exact List.Sublist.refl _
      · rw [if_neg hsmall] at h
        cases seps with
        | nil => simp at hend
        | cons sep rest =>
          simp only [] at h
          by_cases h3 : sep = []
          · rw [if_pos h3] at h
            exact chunkBySize_subl text cs ov hov res h
          · rw [if_neg h3] at h
            have hrest_end : rest.getLast? = some [] := by
              cases rest with
              | nil =>
                simp at hend
                exact absurd hend h3
              | cons r rs => rw [List.getLast?_cons_cons] at hend; exact hend
            by_cases h4 : containsSeq sep text = true
            · rw [if_pos h4] at h
              cases hpk : packLoop cs ov (splitRecAux cs ov n rest)
                  (attachSep sep (pySplit sep text)) [] [] 0 with
              | none => rw [hpk] at h; simp at h
              | some oc =>
                rw [hpk] at h
                simp at h
                subst h
                have hsub := packLoop_subl cs ov (splitRecAux cs ov n rest)
                  (fun p sub hs => ih rest p sub hrest_end hs)
                  (attachSep sep (pySplit sep text)) [] [] 0 oc.1 oc.2
                  (by rw [hpk])
                rw [finalFlush_wsFree]
                refine List.Sublist.trans ?_ hsub
                simp only [joinl_nil, List.nil_append]
                rw [pySplit_reconstruct sep text]
            · rw [if_neg h4] at h
              exact ih rest text res hrest_end h

/-- With `overlap = 0` the recursive splitter exactly preserves the
non-whitespace content of the text. -/
theorem splitRecAux_exact (cs : Nat) :
    ∀ (fuel : Nat) (seps : List (List Char)) (text : List Char)
      (res : List (List Char)),
      seps.getLast? = some [] →
      splitRecAux cs 0 fuel seps text = some res →
      wsFree (joinl res) = wsFree text := by
  intro fuel
  induction fuel with
  | zero => intro seps text res hend h; simp [splitRecAux] at h
  | succ n ih =>
    intro seps text res hend h
    rw [splitRecAux_succ] at h
    by_cases h1 : strip text = []
    · rw [if_pos h1] at h
      simp at h
      subst h
      rw [wsFree_of_strip_nil h1]
      rfl
    · rw [if_neg h1] at h
      by_cases hsmall : text.length ≤ cs
      · rw [if_pos hsmall] at h
        simp at h
        subst h
        simp only [joinl_cons, joinl_nil, List.append_nil, wsFree_strip]
      · rw [if_neg hsmall] at h
        cases seps with
        | nil => simp at hend
        | cons sep rest =>
          simp only [] at h
          by_cases h3 : sep = []
          · rw [if_pos h3] at h
            exact chunkBySize_exact text cs res h
          · rw [if_neg h3] at h
            have hrest_end : rest.getLast? = some [] := by
              cases rest with
              | nil =>
                simp at hend
                exact absurd hend h3
              | cons r rs => rw [List.getLast?_cons_cons] at hend; exact hend
            by_cases h4 : containsSeq sep text = true
            · rw [if_pos h4] at h
              cases hpk : packLoop cs 0 (splitRecAux cs 0 n rest)
                  (attachSep sep (pySplit sep text)) [] [] 0 with
              | none => rw [hpk] at h; simp at h
              | some oc =>
                rw [hpk] at h
                simp at h
                subst h
                have hex := packLoop_exact cs (splitRecAux cs 0 n rest)
                  (fun p sub hs => ih rest p sub hrest_end hs)
                  (attachSep sep (pySplit sep text)) [] [] 0 oc.1 oc.2
                  (by rw [hpk])
                rw [finalFlush_wsFree, hex]
                simp only [joinl_nil, List.nil_append]
                rw [pySplit_reconstruct sep text]
            · rw [if_neg h4] at h
              exact ih rest text res hrest_end h

/-- C5 (amended): (fixed) whenever `10*overlap ≤ 7*chunk_size` (so the
word-boundary retraction cannot retreat past the overlap; the defaults
`500/50` qualify), the fixed chunker's chunks are the trims of windows
whose concatenation — dropping each later window's first `overlap`
characters, the duplicated carry — is exactly the source text; (recursive,
`overlap ≤ chunk_size`) no non-whitespace character is lost or reordered:
the source's non-whitespace content is an ordered subsequence of the
concatenated chunks, the excess being only overlap-duplicated segments;
and with `overlap = 0` the concatenated chunks carry exactly the source's
non-whitespace content.  For `0.7·size < overlap < size` the fixed loop
may never return (counterexample), so the claim's "for all valid (size,
overlap)" fails. -/
theorem c5_reconstruction :
    (∀ (text : List Char) (cs ov : Nat), 1 ≤ cs → 10 * ov ≤ 7 * cs →
      ∃ ws, fixedLoopRaw text cs ov (text.length + 1) 0 = some ws ∧
        chunkTextFixed text cs ov = some (ws.map strip) ∧
        overlapJoin ov ws = text) ∧
    (∀ (text : List Char) (cs ov : Nat) (res : List (List Char)), ov ≤ cs →
      chunkTextRecursive text cs ov = some res →
      (wsFree text).Sublist (wsFree (joinl res))) ∧
    (∀ (text : List Char) (cs : Nat) (res : List (List Char)),
      chunkTextRecursive text cs 0 = some res →
      wsFree (joinl res) = wsFree text) := by
  refine ⟨?_, ?_, ?_⟩
  · intro text cs ov h1 h2
    obtain ⟨ws, hws⟩ := fixedLoopRaw_total text cs ov h1 h2 (text.length + 1) 0
      le_rfl (by omega)
    refine ⟨ws, hws, ?_, ?_⟩
    · unfold chunkTextFixed
      rw [fixedLoop_eq_raw, hws]
      rfl
    · have := fixedLoopRaw_overlapJoin text cs ov h1 h2 (text.length + 1) 0 ws
        le_rfl hws
      simpa using this
  · intro text cs ov res hov h
    exact splitRecAux_subl cs ov hov (separators.length + 1) separators text res
      (by decide) h
  · intro text cs res h
    exact splitRecAux_exact cs (separators.length + 1) separators text res
      (by decide) h

/-- C5 witness: the reconstruction facts at concrete inputs. -/
theorem c5_reconstruction_wit :
    (∃ ws, fixedLoopRaw (("The quick brown fox jumps").data) 10 2
        ((("The quick brown fox jumps").data).length + 1) 0 = some ws ∧
      chunkTextFixed (("The quick brown fox jumps").data) 10 2 =
        some (ws.map strip) ∧
      overlapJoin 2 ws = ("The quick brown fox jumps").data) ∧
    (wsFree (("ab cd").data)).Sublist (wsFree (joinl [("ab cd").data])) ∧
    wsFree (joinl [("ab").data]) = wsFree (("ab").data) :=
  ⟨c5_reconstruction.1 (("The quick brown fox jumps").data) 10 2 (by decide)
     (by decide),
   c5_reconstruction.2.1 (("ab cd").data) 5 1 [("ab cd").data] (by decide)
     (by decide),
   c5_reconstruction.2.2 (("ab").data) 5 [("ab").data] (by decide)⟩

end Rag
